import Mathlib

/-!
Shallow embedding of `src/dependency_mapper.py` (class `DependencyMapper` and the
`main` routine), together with theorems settling the claims about it.

Modelling conventions:
* A project-relative file path is the list of its separator-delimited segments
  (`Path`); `os.path.dirname` is `List.dropLast`, `os.path.join dir name` is
  `dir ++ [name]`, `os.path.basename` is the last segment, and the string form
  of a path joins the segments with `'/'`.
* The filesystem visible under the project root is an association list from
  `Path` to `PyFile`; `os.path.exists` is a successful lookup.  An invalid
  project root (a path that does not exist or is not a directory) is modelled
  by the empty filesystem: `os.walk` over such a root yields nothing and no
  existence probe under it succeeds.
* A source file is its raw text together with the outcome of `ast.parse`:
  `none` when parsing raises (a malformed file), otherwise the ordered list
  of import-bearing nodes that `ast.walk` yields.
* Python `set`s are modelled as duplicate-free lists in insertion order and
  `dict`s as association lists in insertion order (Python dicts preserve
  insertion order); this fixes one deterministic iteration order for sets,
  which no settled claim depends on.
* The unbounded Python recursion in `_map_dependencies_recursive` and `_dfs`
  takes an explicit fuel argument; fuel `|fs| + 1` is proved sufficient for the
  builder (see the fuel-stability theorems), which is the termination argument.
* `MapperState.parsedLog` is a ghost field recording each invocation of
  `extract_imports` made by the builder; it influences nothing else and exists
  only to state the visited-once property.
-/

namespace DepMapper

/-- A project-relative file path, as the list of its separator-delimited segments. -/
abbrev Path := List String

/-- One import-bearing node as produced by `ast.walk` over a parsed file:
`import a, b.c` contributes every dotted name (`imp`), `from m import x`
contributes the module portion (`fromImp (some m)`), and a purely relative
`from . import x` has no module portion (`fromImp none`).  A specifier is the
list of its dot-separated segments. -/
inductive Stmt where
  | imp (names : List (List String))
  | fromImp (module : Option (List String))
deriving DecidableEq

/-- A source file as the engine sees it: its raw text (used by the script-guard
scan of `identify_unused_files`) and the result of `ast.parse` (`none` when the
file is malformed and parsing raises). -/
structure PyFile where
  text : String
  stmts : Option (List Stmt)
deriving DecidableEq

/-- The filesystem under the project root: an association list from
project-relative path to file, listed in `os.walk` order. -/
abbrev FS := List (Path × PyFile)

/-- Association-list lookup keyed by path (Python dict access). -/
def lookupA {β : Type} : List (Path × β) → Path → Option β
  | [], _ => none
  | (k', v) :: rest, k => if k' = k then some v else lookupA rest k

/-- `os.path.exists` for a project-relative candidate path. -/
def pathExists (fs : FS) (p : Path) : Bool := (lookupA fs p).isSome

/-- Membership of a string in a list of strings (Python `in` on a set of names). -/
def memStr : List String → String → Bool
  | [], _ => false
  | x :: xs, s => if x = s then true else memStr xs s

/-- `DependencyMapper.std_lib_modules`: standard-library names to ignore,
in source order. -/
def stdLibModules : List String := [
  "os", "sys", "time", "datetime", "tkinter", "sqlite3", "json", "re", "ast", "typing",
  "calendar", "pandas", "docx", "pdfkit", "smtplib", "email", "tempfile", "webbrowser",
  "subprocess", "math", "random", "logging", "collections", "functools", "itertools",
  "pathlib", "shutil", "glob", "argparse", "configparser", "csv", "hashlib", "uuid",
  "socket", "threading", "multiprocessing", "queue", "urllib", "http", "ftplib", "ssl",
  "xml", "html", "unittest", "pytest", "doctest", "pdb", "traceback", "warnings",
  "contextlib", "abc", "copy", "enum", "io", "pickle", "shelve", "dbm", "zlib", "gzip",
  "zipfile", "tarfile", "platform", "ctypes", "gc", "inspect", "importlib",
  "pkg_resources", "setuptools", "distutils", "venv", "virtualenv", "pip", "wheel",
  "base64", "bz2", "codecs", "crypt", "curses", "decimal", "difflib", "filecmp",
  "fnmatch", "fractions", "getopt", "getpass", "gettext", "grp", "gzip", "heapq",
  "hmac", "imaplib", "imp", "keyword", "linecache", "locale", "lzma", "mailbox",
  "mimetypes", "mmap", "modulefinder", "netrc", "numbers", "operator", "optparse",
  "os.path", "pprint", "pwd", "py_compile", "quopri", "reprlib", "rlcompleter",
  "sched", "secrets", "selectors", "signal", "site", "smtpd", "sndhdr", "spwd",
  "statistics", "string", "stringprep", "struct", "subprocess", "sunau", "symbol",
  "symtable", "sysconfig", "tabnanny", "telnetlib", "tempfile", "textwrap", "this",
  "timeit", "token", "tokenize", "trace", "tty", "turtle", "types", "unicodedata",
  "uu", "wave", "weakref", "webbrowser", "wsgiref", "xdrlib", "zipapp", "zipimport"]

/-- `DependencyMapper.third_party_modules`: third-party package names to ignore,
in source order. -/
def thirdPartyModules : List String := [
  "numpy", "pandas", "matplotlib", "seaborn", "scipy", "sklearn", "tensorflow", "torch",
  "keras", "django", "flask", "fastapi", "requests", "beautifulsoup4", "bs4", "lxml",
  "sqlalchemy", "pymongo", "redis", "celery", "pytest", "unittest", "nose", "pillow",
  "opencv", "cv2", "pydantic", "click", "typer", "rich", "tqdm", "boto3", "botocore",
  "awscli", "azure", "google", "firebase", "pymysql", "psycopg2", "pyodbc",
  "cx_Oracle", "pyyaml", "toml", "configparser", "dotenv", "pytest", "unittest",
  "mock", "faker", "factory_boy", "coverage", "flake8", "pylint", "mypy", "black",
  "isort", "docx", "pdfkit", "reportlab", "openpyxl", "xlrd", "xlwt", "xlsxwriter",
  "pywin32", "pyinstaller", "cx_Freeze", "py2exe", "pyqt5", "pyside2", "wxpython",
  "kivy", "pygame", "pyglet", "pycairo", "pygtk", "pycrypto", "cryptography",
  "bcrypt", "passlib", "jwt", "oauth2", "oauthlib", "authlib", "scrapy", "selenium",
  "splinter", "mechanize", "twisted", "tornado", "aiohttp", "asyncio", "uvicorn",
  "gunicorn", "waitress", "werkzeug", "jinja2", "mako", "chameleon", "pyramid",
  "zope", "plone", "wagtail", "ckan", "odoo", "sentry_sdk", "raven", "loguru",
  "structlog", "logging", "alembic", "peewee", "pony", "tortoise", "gino", "piccolo",
  "marshmallow", "cerberus", "voluptuous", "jsonschema", "graphene", "strawberry",
  "ariadne", "graphql", "grpc", "protobuf", "thrift", "avro", "msgpack", "cbor2",
  "ujson", "orjson", "simplejson", "rapidjson", "pyarrow", "fastavro", "dask",
  "xarray", "numba", "cython", "pypy", "jax", "mxnet", "theano", "caffe",
  "paddlepaddle", "transformers", "spacy", "nltk", "gensim", "textblob", "polyglot",
  "stanfordnlp", "allennlp", "fairseq", "huggingface", "tokenizers", "sentencepiece",
  "wordcloud", "networkx", "igraph", "pydot", "pygraphviz", "plotly", "bokeh",
  "altair", "ggplot", "folium", "geopandas", "shapely", "fiona", "pyproj",
  "rasterio", "gdal", "cartopy", "basemap", "osmnx", "pysal", "geopy", "geocoder",
  "reverse_geocoder", "pymc3", "pystan", "fbprophet", "statsmodels", "lifelines",
  "sympy", "sage", "mpmath", "gmpy2", "pycryptodome", "paramiko", "fabric", "invoke",
  "ansible", "salt", "puppet", "chef", "docker", "kubernetes", "openshift", "helm",
  "terraform", "pulumi", "troposphere", "cloudformation", "boto", "libcloud",
  "azure-sdk", "google-cloud", "firebase-admin", "suds", "zeep", "spyne", "soaplib",
  "pysimplesoap", "pysftp", "ftputil", "pyftpdlib", "pyinotify", "watchdog",
  "pywin32", "winreg", "win32api", "win32con", "win32gui", "win32process",
  "win32service", "pyautogui", "pynput", "pyperclip", "clipboard", "pyaudio",
  "sounddevice", "pygame.mixer", "simpleaudio", "pydub", "librosa", "ffmpeg",
  "imageio", "moviepy", "opencv-python", "scikit-image", "scikit-learn", "xgboost",
  "lightgbm", "catboost", "h2o", "pyspark", "dask", "ray", "modin", "vaex",
  "datatable", "polars", "cudf", "cuml", "cugraph", "cuspatial", "cupy", "jaxlib",
  "tensorflow-gpu", "torch.cuda", "horovod", "petastorm", "mlflow", "wandb",
  "tensorboard", "sacred", "neptune", "comet_ml", "optuna", "hyperopt", "ray.tune",
  "skopt", "nevergrad", "ax", "botorch", "gpytorch", "pyro", "pymc", "edward",
  "zhusuan", "pystan", "emcee", "pomegranate", "pgmpy", "bayespy", "pymc3", "pyro",
  "numpyro", "tensorflow_probability", "pystan", "arviz", "corner", "getdist",
  "astropy", "sunpy", "astroquery", "astroml", "astropy.io", "astropy.table",
  "astropy.units", "astropy.constants", "astropy.coordinates", "astropy.time",
  "astropy.wcs", "astropy.io.fits", "astropy.io.ascii", "astropy.io.votable",
  "astropy.io.misc", "astropy.io.registry", "astropy.io.fits", "astropy.io.ascii",
  "astropy.io.votable", "astropy.io.misc", "astropy.io.registry", "astropy.io.fits",
  "astropy.io.ascii", "astropy.io.votable", "astropy.io.misc", "astropy.io.registry",
  "astropy.io.fits", "astropy.io.ascii", "astropy.io.votable", "astropy.io.misc",
  "astropy.io.registry"]

/-- `DependencyMapper.is_external_module`: test the first dotted segment of the
specifier against the two static name sets. -/
def isExternalModule (moduleName : List String) : Bool :=
  let firstPart := moduleName.headD ""
  memStr stdLibModules firstPart || memStr thirdPartyModules firstPart

/-- `os.path.dirname` on a project-relative path: drop the last segment. -/
def dirnameP (p : Path) : Path := p.dropLast

/-- `import_name.split('.')[-1]`: the last dotted segment of a specifier. -/
def lastSegment (specifier : List String) : String := specifier.getLastD ""

/-- `'.' in current_file`: does the string form of the path contain a dot
(the separator contributes none, so this checks the segments). -/
def pathHasDot (p : Path) : Bool := p.any (fun s => s.data.contains '.')

/-- `DependencyMapper.resolve_import_path`: skip external modules, then probe
the fixed candidate list in order and return the first candidate that exists,
project-relative; `none` when nothing matches (the diagnostic print is not
modelled).  Candidate 4 is built exactly as the source builds it:
`os.path.dirname(current_file)` joined with the last segment, guarded by
`'.' in current_file`. -/
def resolveImportPath (fs : FS) (importName : List String) (currentFile : Path) :
    Option Path :=
  if isExternalModule importName then none
  else
    let possiblePaths : List Path :=
      [importName.dropLast ++ [lastSegment importName ++ ".py"],
       importName ++ ["__init__.py"],
       dirnameP currentFile ++ [lastSegment importName ++ ".py"]] ++
      (if pathHasDot currentFile then
         [dirnameP currentFile ++ [lastSegment importName ++ ".py"]]
       else [])
    possiblePaths.find? (fun p => pathExists fs p)

/-- Specifiers contributed by one import-bearing node: every name of an
`import` node, the module portion of a `from ... import` node when present,
nothing when the module portion is absent. -/
def stmtImports : Stmt → List (List String)
  | .imp names => names
  | .fromImp (some m) => [m]
  | .fromImp none => []

/-- Specifiers of a parsed body, in node order. -/
def bodyImports (stmts : List Stmt) : List (List String) :=
  stmts.foldl (fun acc s => acc ++ stmtImports s) []

/-- `DependencyMapper.extract_imports`: a missing file or a file whose parse
raises yields the empty list (the exception is caught inside); otherwise the
specifiers of the parsed body in walk order. -/
def extractImports (fs : FS) (filePath : Path) : List (List String) :=
  match lookupA fs filePath with
  | none => []
  | some file =>
    match file.stmts with
    | none => []
    | some stmts => bodyImports stmts

/-- Builder state: the dependency map and the processed-files set, both in
insertion order, plus the ghost log of `extract_imports` invocations. -/
structure MapperState where
  dependencyMap : List (Path × List Path)
  processedFiles : List Path
  parsedLog : List Path
deriving DecidableEq

/-- The state a fresh `DependencyMapper` starts from (`__init__` performs no
validation of the root: it only stores it and creates empty containers). -/
def initState : MapperState := ⟨[], [], []⟩

/-- The dependency-collection loop of `_map_dependencies_recursive`: resolve
each specifier and append the result when it resolved and is not the file
itself. -/
def resolveDeps (fs : FS) (imports : List (List String)) (filePath : Path) :
    List Path :=
  imports.foldl (fun deps importName =>
    match resolveImportPath fs importName filePath with
    | some resolvedPath =>
      if resolvedPath ≠ filePath then deps ++ [resolvedPath] else deps
    | none => deps) []

/-- The state change of one unprocessed file inside
`_map_dependencies_recursive`: mark it processed, log the `extract_imports`
call, and store its entry — the resolved dependencies of its
extracted imports. -/
def stepState (fs : FS) (filePath : Path) (st : MapperState) : MapperState :=
  { dependencyMap :=
      st.dependencyMap ++ [(filePath, resolveDeps fs (extractImports fs filePath) filePath)]
    processedFiles := st.processedFiles ++ [filePath]
    parsedLog := st.parsedLog ++ [filePath] }

/-- `DependencyMapper._map_dependencies_recursive`, with explicit fuel standing
for the Python call stack: skip processed files; otherwise mark processed,
extract imports, resolve them, store the entry (all of which is `stepState`),
and recurse into each resolved dependency. -/
def mapRecur (fs : FS) : Nat → Path → MapperState → MapperState
  | 0, _, st => st
  | fuel + 1, filePath, st =>
    if filePath ∈ st.processedFiles then st
    else
      (resolveDeps fs (extractImports fs filePath) filePath).foldl
        (fun s d => mapRecur fs fuel d s) (stepState fs filePath st)

/-- `suffix` is a suffix of `s` (Python `str.endswith`). -/
def strEndsWith (s suffix : String) : Bool := suffix.data.isSuffixOf s.data

/-- The files `os.walk` yields under the root whose name ends in `.py`,
in walk order. -/
def pyFiles (fs : FS) : List Path :=
  (fs.map (·.1)).filter (fun p => strEndsWith (p.getLastD "") ".py")

/-- `DependencyMapper.map_dependencies`: with a start file, one recursive
descent from it; without, one descent per `.py` file under the root, sharing
the processed set.  Fuel `|fs| + 1` per descent is sufficient (proved below). -/
def mapDependencies (fs : FS) (startFile : Option Path) : MapperState :=
  match startFile with
  | some s => mapRecur fs (fs.length + 1) s initState
  | none => (pyFiles fs).foldl (fun st p => mapRecur fs (fs.length + 1) p st) initState

/-- Lexicographic order on char lists by code point, the order Python uses on
strings. -/
def charListLe : List Char → List Char → Bool
  | [], _ => true
  | _ :: _, [] => false
  | a :: as, b :: bs =>
    if a.toNat < b.toNat then true
    else if b.toNat < a.toNat then false
    else charListLe as bs

/-- The string form of a path: segments joined with the separator. -/
def pathChars : Path → List Char
  | [] => []
  | [s] => s.data
  | s :: rest => s.data ++ '/' :: pathChars rest

/-- Order on paths by their string form (how Python compares the path strings). -/
def pathLe (p q : Path) : Bool := charListLe (pathChars p) (pathChars q)

/-- Python `sorted` on a list of paths: a stable sort by string form. -/
def pathSort (l : List Path) : List Path :=
  List.insertionSort (fun p q => pathLe p q = true) l

/-- `json.dump(dependency_map, f, indent=2, sort_keys=True)` in `main`: the
persisted entries sorted by key; each value list is dumped exactly as stored. -/
def persistMap (m : List (Path × List Path)) : List (Path × List Path) :=
  List.insertionSort (fun a b => pathLe a.1 b.1 = true) m

/-- The `main` routine: build from `main.py` and persist the map. -/
def mainRun (fs : FS) : List (Path × List Path) :=
  persistMap (mapDependencies fs (some ["main.py"])).dependencyMap

/-- The undirected adjacency view of `identify_systems`: keys in insertion
order, neighbour lists as insertion-ordered sets. -/
abbrev Graph := List (Path × List Path)

/-- `if node not in graph: graph[node] = set()`. -/
def graphEnsureKey (g : Graph) (k : Path) : Graph :=
  if (lookupA g k).isSome then g else g ++ [(k, [])]

/-- `graph[k].add(v)`: add `v` to `k`'s neighbour set when absent. -/
def graphAddNbr (g : Graph) (k v : Path) : Graph :=
  g.map (fun e => if e.1 = k then (e.1, if v ∈ e.2 then e.2 else e.2 ++ [v]) else e)

/-- One dependency edge's contribution to the undirected graph: add the
forward edge, ensure the dependency is a node, and add the reverse edge. -/
def gEdgeStep (k : Path) (g : Graph) (dep : Path) : Graph :=
  graphAddNbr (graphEnsureKey (graphAddNbr g k dep) dep) dep k

/-- One map entry's contribution: ensure the file is a node, then process each
of its dependencies. -/
def gEntryStep (g : Graph) (e : Path × List Path) : Graph :=
  e.2.foldl (gEdgeStep e.1) (graphEnsureKey g e.1)

/-- The graph-building loop of `identify_systems`. -/
def buildGraph (m : List (Path × List Path)) : Graph :=
  m.foldl gEntryStep []

/-- The two shared mutable sets of `_dfs`. -/
structure DfsState where
  visited : List Path
  component : List Path
deriving DecidableEq

/-- `DependencyMapper._dfs` with fuel: mark the node visited and part of the
component, then recurse into each not-yet-visited neighbour. -/
def dfsRecur (g : Graph) : Nat → Path → DfsState → DfsState
  | 0, _, ds => ds
  | fuel + 1, node, ds =>
    let ds' : DfsState := ⟨ds.visited ++ [node], ds.component ++ [node]⟩
    ((lookupA g node).getD []).foldl
      (fun s nbr => if nbr ∈ s.visited then s else dfsRecur g fuel nbr s) ds'

/-- One system as `identify_systems` reports it: the sorted member list, the
member count, and the 1-based ordinal id assigned after sorting.  The generated
display name is not modelled (it depends on Python set-iteration order and no
claim concerns it). -/
structure SystemInfo where
  files : List Path
  fileCount : Nat
  sysId : Nat
deriving DecidableEq

/-- The outer component loop of `identify_systems`: accumulated systems plus
the shared visited set.  An unvisited node starts a fresh depth-first search;
the component is kept as a system only when it has at least two members. -/
def systemsStep (graph : Graph) (acc : List SystemInfo × List Path) (node : Path) :
    List SystemInfo × List Path :=
  if node ∈ acc.2 then acc
  else if 2 ≤ (dfsRecur graph (graph.length + 1) node ⟨acc.2, []⟩).component.length then
    (acc.1 ++
      [⟨pathSort (dfsRecur graph (graph.length + 1) node ⟨acc.2, []⟩).component,
        (dfsRecur graph (graph.length + 1) node ⟨acc.2, []⟩).component.length, 0⟩],
      (dfsRecur graph (graph.length + 1) node ⟨acc.2, []⟩).visited)
  else (acc.1, (dfsRecur graph (graph.length + 1) node ⟨acc.2, []⟩).visited)

/-- The kept systems of `identify_systems`, sorted by member count descending
(Python's stable sort with `reverse=True`). -/
def sortedSystems (m : List (Path × List Path)) : List SystemInfo :=
  List.insertionSort (fun a b => b.fileCount ≤ a.fileCount)
    (((buildGraph m).map (·.1)).foldl (systemsStep (buildGraph m)) ([], [])).1

/-- `DependencyMapper.identify_systems`: empty map short-circuits; otherwise
build the undirected graph, collect connected components by depth-first search
over the nodes in insertion order, keep those with at least two members, sort
by member count descending (stable), and assign ids 1, 2, ... in that order. -/
def identifySystems (m : List (Path × List Path)) : List SystemInfo :=
  if m.isEmpty then []
  else (sortedSystems m).enum.map (fun e => { e.2 with sysId := e.1 + 1 })

/-- Conventional entry-point file names skipped by `identify_unused_files`. -/
def entryPointNames : List String :=
  ["main.py", "__main__.py", "app.py", "run.py", "server.py"]

/-- `sub in s` on strings (Python substring containment). -/
def strContainsSub (s sub : String) : Bool :=
  s.data.tails.any (fun t => sub.data.isPrefixOf t)

/-- The best-effort textual scan of `identify_unused_files` for a run-as-script
guard: the text contains the dunder-name token, the dunder-main token and the
word `if`. -/
def hasMainGuard (content : String) : Bool :=
  strContainsSub content "__name__" && strContainsSub content "__main__" &&
    strContainsSub content "if"

/-- `if key not in reverse_map: reverse_map[key] = []`. -/
def revEnsureKey (rm : List (Path × List Path)) (k : Path) :
    List (Path × List Path) :=
  if (lookupA rm k).isSome then rm else rm ++ [(k, [])]

/-- `reverse_map[dep].append(file_path)`, after ensuring `dep` has an entry. -/
def revAddImporter (importer : Path) (rm : List (Path × List Path)) (dep : Path) :
    List (Path × List Path) :=
  (revEnsureKey rm dep).map
    (fun r => if r.1 = dep then (r.1, r.2 ++ [importer]) else r)

/-- One entry's contribution to the reverse map: ensure the file has an entry,
then append it as an importer of each of its dependencies. -/
def revStep (rm : List (Path × List Path)) (e : Path × List Path) :
    List (Path × List Path) :=
  e.2.foldl (revAddImporter e.1) (revEnsureKey rm e.1)

/-- The reverse-dependency map of `identify_unused_files`: every key gains an
entry; every dependency gains the importing file appended to its entry. -/
def buildReverseMap (m : List (Path × List Path)) : List (Path × List Path) :=
  m.foldl revStep []

/-- The entry-point filter of `identify_unused_files`: a candidate survives
when its file name is not a conventional entry-point name and — when the file
is readable — its text lacks the script-guard tokens; an unreadable file
survives (the read failure is swallowed and the file kept). -/
def unusedPred (fs : FS) (p : Path) : Bool :=
  if memStr entryPointNames (p.getLastD "") then false
  else
    match lookupA fs p with
    | some file => !(hasMainGuard file.text)
    | none => true

/-- `DependencyMapper.identify_unused_files`: empty map short-circuits;
otherwise keep the map keys whose reverse entry is empty, filter them through
`unusedPred`, and return the survivors sorted. -/
def identifyUnusedFiles (fs : FS) (m : List (Path × List Path)) : List Path :=
  if m.isEmpty then []
  else
    pathSort (((m.map (·.1)).filter
      (fun p => ((lookupA (buildReverseMap m) p).getD []).isEmpty)).filter
      (unusedPred fs))

/-! ### Measures and invariants used by the proofs -/

/-- Number of files under the root not yet processed: the termination measure
of `_map_dependencies_recursive`. -/
def unprocessedCount (fs : FS) (st : MapperState) : Nat :=
  ((fs.map (·.1)).filter (fun p => decide (p ∉ st.processedFiles))).length

/-- Every stored entry holds exactly the resolved dependencies of the file's
extracted imports. -/
def EntriesSpec (fs : FS) (st : MapperState) : Prop :=
  ∀ p l, lookupA st.dependencyMap p = some l →
    l = resolveDeps fs (extractImports fs p) p

/-- The processed set and the dependency-map keys coincide. -/
def KeysInv (st : MapperState) : Prop :=
  ∀ p, p ∈ st.processedFiles ↔ (lookupA st.dependencyMap p).isSome = true

/-- The `extract_imports` log has no repeats and only processed files. -/
def LogInv (st : MapperState) : Prop :=
  st.parsedLog.Nodup ∧ ∀ p ∈ st.parsedLog, p ∈ st.processedFiles

/-! ### Concrete fixtures for the claims -/

/-- A well-formed source file with the given parsed body and irrelevant text. -/
def mkFile (stmts : List Stmt) : PyFile := ⟨"", some stmts⟩

/-- A project where `main.py` imports `z` before `a`: the discovery order of
its dependencies is not the lexicographic order. -/
def fsUnsorted : FS :=
  [(["main.py"], mkFile [.imp [["z"]], .imp [["a"]]]),
   (["z.py"], mkFile []),
   (["a.py"], mkFile [])]

/-- A project where `a.py` imports the same module twice, through an `import`
and a `from ... import`. -/
def fsDup : FS :=
  [(["a.py"], mkFile [.imp [["b"]], .fromImp (some ["b"])]),
   (["b.py"], mkFile [])]

/-- A project where `pkg/sub/mod.py` imports `helper`, which exists only one
directory above the importing file, at `pkg/helper.py`. -/
def fsParent : FS :=
  [(["pkg", "helper.py"], mkFile []),
   (["pkg", "sub", "mod.py"], mkFile [.imp [["helper"]]])]

/-- A project where the specifier `pkg.mod` is importable both as
`pkg/mod.py` and as `pkg/mod/__init__.py`. -/
def fsBoth : FS :=
  [(["pkg", "mod.py"], mkFile []),
   (["pkg", "mod", "__init__.py"], mkFile [])]

/-- The two-file import cycle: `A.py` imports `B` and `B.py` imports `A`. -/
def fsCyc : FS :=
  [(["A.py"], mkFile [.imp [["B"]]]),
   (["B.py"], mkFile [.imp [["A"]]])]

/-- A project with a malformed file (`bad.py`, whose parse raises) next to a
well-formed file importing it. -/
def fsBad : FS :=
  [(["bad.py"], ⟨"def broken(:", none⟩),
   (["ok.py"], mkFile [.imp [["bad"]]])]

/-- A project whose `rel.py` contains only a purely relative
`from . import name` statement. -/
def fsRel : FS :=
  [(["rel.py"], mkFile [.fromImp none, .fromImp none])]

/-- The synthetic dependency map of the systems claim. -/
def mSys : List (Path × List Path) :=
  [(["a"], [["b"]]), (["b"], [["a"]]), (["c"], [["d"]]), (["d"], [])]

/-- The synthetic dependency map of the unused-files claim, with neither file
named as an entry point nor containing the script guard. -/
def mUnused : List (Path × List Path) :=
  [(["x.py"], []), (["y.py"], [["x.py"]])]

/-- The filesystem behind `mUnused`: plain texts without the guard idiom. -/
def fsUnused : FS :=
  [(["x.py"], ⟨"VALUE = 1", some []⟩),
   (["y.py"], ⟨"import x", some [.imp [["x"]]]⟩)]

/-- The three builder invariants together. -/
def StInv (fs : FS) (st : MapperState) : Prop :=
  EntriesSpec fs st ∧ KeysInv st ∧ LogInv st

/-- One adjacency step in the undirected view: `y` is in `x`'s neighbour set. -/
def adjacent (g : Graph) (x y : Path) : Prop := y ∈ (lookupA g x).getD []

/-- Connectivity in the undirected closure: the reflexive-transitive closure
of adjacency. -/
def connectedG (g : Graph) : Path → Path → Prop :=
  Relation.ReflTransGen (adjacent g)

/-- Reachability avoiding a visited set: every step lands outside `v`. -/
def reachAvoid (g : Graph) (v : List Path) : Path → Path → Prop :=
  Relation.ReflTransGen (fun x y => adjacent g x y ∧ y ∉ v)

/-- A set of nodes closed under adjacency. -/
def ClosedUnder (g : Graph) (v : List Path) : Prop :=
  ∀ x ∈ v, ∀ y, adjacent g x y → y ∈ v

/-- The graph is symmetric: every edge has its reverse. -/
def SymGraph (g : Graph) : Prop := ∀ x y, adjacent g x y → adjacent g y x

/-- Every neighbour is itself a node of the graph. -/
def NbrsAreKeys (g : Graph) : Prop :=
  ∀ x y, adjacent g x y → y ∈ g.map (·.1)

/-- Number of graph nodes not yet visited: the termination measure of `_dfs`. -/
def unvisitedCount (g : Graph) (v : List Path) : Nat :=
  ((g.map (·.1)).filter (fun p => decide (p ∉ v))).length

/-- What one reported system is: a duplicate-free file list that is exactly
one connected component of the graph, with a consistent count of at least
two. -/
def SysP (g : Graph) (s : SystemInfo) : Prop :=
  (∃ n, ∀ y, y ∈ s.files ↔ connectedG g n y) ∧ s.files.Nodup ∧
    s.fileCount = s.files.length ∧ 2 ≤ s.fileCount

/-- The invariant of the outer component loop: the visited set is
adjacency-closed and duplicate-free, every accumulated system satisfies
`SysP`, and every visited node lying in a component of size at least two
already appears in an accumulated system. -/
def SysInv (g : Graph) (acc : List SystemInfo × List Path) : Prop :=
  ClosedUnder g acc.2 ∧ acc.2.Nodup ∧
  (∀ s ∈ acc.1, SysP g s) ∧
  (∀ x ∈ acc.2, (∃ y, y ≠ x ∧ connectedG g x y) → ∃ s ∈ acc.1, x ∈ s.files)

/-! ### Generic lemmas -/

theorem foldl_invariant {α β : Type} {P : α → Prop} (f : α → β → α)
    (h : ∀ a b, P a → P (f a b)) :
    ∀ (l : List β) (a : α), P a → P (List.foldl f a l)
  | [], _, ha => ha
  | b :: l, a, ha => foldl_invariant f h l (f a b) (h a b ha)

theorem lookupA_append_left {β : Type} (m' : List (Path × β)) :
    ∀ (m : List (Path × β)) (k : Path) (v : β),
      lookupA m k = some v → lookupA (m ++ m') k = some v := by
  intro m
  induction m with
  | nil => intro k v h; simp [lookupA] at h
  | cons e rest ih =>
    intro k v h
    by_cases he : e.1 = k
    · simp_all [lookupA]
    · simp only [lookupA, he, if_false] at h
      simpa [lookupA, he] using ih k v h

theorem lookupA_append_right {β : Type} (m' : List (Path × β)) :
    ∀ (m : List (Path × β)) (k : Path),
      lookupA m k = none → lookupA (m ++ m') k = lookupA m' k := by
  intro m
  induction m with
  | nil => intro k _; simp [lookupA]
  | cons e rest ih =>
    intro k h
    by_cases he : e.1 = k
    · simp [lookupA, he] at h
    · simp only [lookupA, he, if_false] at h
      simpa [lookupA, he] using ih k h

theorem lookupA_append_single {β : Type} (m : List (Path × β)) (k p : Path)
    (v l : β) (h : lookupA (m ++ [(k, v)]) p = some l) :
    lookupA m p = some l ∨ (p = k ∧ l = v) := by
  cases hm : lookupA m p with
  | some w =>
    have h2 := (lookupA_append_left [(k, v)] m p w hm).symm.trans h
    exact Or.inl (congrArg some (Option.some.inj h2))
  | none =>
    rw [lookupA_append_right _ m p hm] at h
    by_cases hk : k = p
    · rw [lookupA, if_pos hk] at h
      exact Or.inr ⟨hk.symm, (Option.some.inj h).symm⟩
    · rw [lookupA, if_neg hk] at h
      rw [lookupA] at h
      exact Option.noConfusion h

theorem lookupA_isSome_iff {β : Type} :
    ∀ (m : List (Path × β)) (k : Path),
      (lookupA m k).isSome = true ↔ k ∈ m.map (·.1) := by
  intro m
  induction m with
  | nil => intro k; simp [lookupA]
  | cons e rest ih =>
    intro k
    by_cases he : e.1 = k
    · rw [lookupA, if_pos he, List.map_cons]
      constructor
      · intro _
        exact List.mem_cons.mpr (Or.inl he.symm)
      · intro _
        rfl
    · rw [lookupA, if_neg he]
      rw [ih k]
      simp only [List.map_cons, List.mem_cons]
      constructor
      · exact Or.inr
      · intro hc
        rcases hc with hc | hc
        · exact absurd hc.symm he
        · exact hc

theorem filter_length_mono {α : Type} (p q : α → Bool)
    (h : ∀ a, p a = true → q a = true) :
    ∀ l : List α, (l.filter p).length ≤ (l.filter q).length := by
  intro l
  induction l with
  | nil => simp
  | cons a l ih =>
    by_cases hp : p a = true
    · have hq := h a hp
      simp only [List.filter_cons, hp, hq, if_true, List.length_cons]
      omega
    · have hp' : p a = false := by simpa using hp
      by_cases hq : q a = true
      · simp only [List.filter_cons, hp', hq, Bool.false_eq_true, if_false, if_true,
          List.length_cons]
        omega
      · have hq' : q a = false := by simpa using hq
        simpa only [List.filter_cons, hp', hq', Bool.false_eq_true, if_false] using ih

theorem filter_length_lt {α : Type} (p q : α → Bool)
    (h : ∀ a, p a = true → q a = true) :
    ∀ (l : List α) (x : α), x ∈ l → q x = true → p x = false →
      (l.filter p).length < (l.filter q).length := by
  intro l
  induction l with
  | nil => intro x hx _ _; simp at hx
  | cons a l ih =>
    intro x hx hqx hpx
    rcases List.mem_cons.mp hx with rfl | hx'
    · have hmono := filter_length_mono p q h l
      simp only [List.filter_cons, hpx, hqx, Bool.false_eq_true, if_false, if_true,
        List.length_cons]
      omega
    · have hlt := ih x hx' hqx hpx
      by_cases hpa : p a = true
      · have hqa := h a hpa
        simp only [List.filter_cons, hpa, hqa, if_true, List.length_cons]
        omega
      · have hpa' : p a = false := by simpa using hpa
        by_cases hqa : q a = true
        · simp only [List.filter_cons, hpa', hqa, Bool.false_eq_true, if_false, if_true,
            List.length_cons]
          omega
        · have hqa' : q a = false := by simpa using hqa
          simp only [List.filter_cons, hpa', hqa', Bool.false_eq_true, if_false]
          omega

/-! ### Builder lemmas -/

theorem mapRecur_inv (fs : FS) (P : MapperState → Prop)
    (hstep : ∀ fp st, P st → fp ∉ st.processedFiles → P (stepState fs fp st)) :
    ∀ (fuel : Nat) (fp : Path) (st : MapperState), P st → P (mapRecur fs fuel fp st) := by
  intro fuel
  induction fuel with
  | zero => intro fp st h; simpa [mapRecur] using h
  | succ n ih =>
    intro fp st h
    by_cases hmem : fp ∈ st.processedFiles
    · simpa [mapRecur, hmem] using h
    · rw [mapRecur, if_neg hmem]
      exact foldl_invariant _ (fun a b ha => ih b a ha) _ _ (hstep fp st h hmem)

theorem mapRecur_processed_mono (fs : FS) (x : Path) (fuel : Nat) (fp : Path)
    (st : MapperState) (h : x ∈ st.processedFiles) :
    x ∈ (mapRecur fs fuel fp st).processedFiles :=
  mapRecur_inv fs (fun s => x ∈ s.processedFiles)
    (fun fp' st' h' _ => by simp [stepState]; exact Or.inl h') fuel fp st h

theorem mapRecur_entry_mono (fs : FS) (p : Path) (l : List Path) (fuel : Nat)
    (fp : Path) (st : MapperState) (h : lookupA st.dependencyMap p = some l) :
    lookupA (mapRecur fs fuel fp st).dependencyMap p = some l :=
  mapRecur_inv fs (fun s => lookupA s.dependencyMap p = some l)
    (fun fp' st' h' _ => lookupA_append_left _ _ _ _ h') fuel fp st h

theorem mapRecur_processes (fs : FS) (fuel : Nat) (fp : Path) (st : MapperState) :
    fp ∈ (mapRecur fs (fuel + 1) fp st).processedFiles := by
  by_cases hmem : fp ∈ st.processedFiles
  · simpa [mapRecur, hmem] using hmem
  · rw [mapRecur, if_neg hmem]
    exact foldl_invariant _ (fun a b ha => mapRecur_processed_mono fs fp fuel b a ha) _ _
      (by simp [stepState])

theorem extractImports_of_missing (fs : FS) (fp : Path)
    (h : lookupA fs fp = none) : extractImports fs fp = [] := by
  rw [extractImports, h]

theorem resolveDeps_nil (fs : FS) (fp : Path) : resolveDeps fs [] fp = [] := rfl

theorem resolveDeps_not_self_aux (fs : FS) (fp : Path) :
    ∀ (imports : List (List String)) (acc : List Path), fp ∉ acc →
      fp ∉ imports.foldl (fun deps importName =>
        match resolveImportPath fs importName fp with
        | some resolvedPath =>
          if resolvedPath ≠ fp then deps ++ [resolvedPath] else deps
        | none => deps) acc := by
  intro imports
  induction imports with
  | nil => intro acc h; simpa using h
  | cons i rest ih =>
    intro acc h
    rw [List.foldl_cons]
    apply ih
    cases hr : resolveImportPath fs i fp with
    | none => simpa [hr] using h
    | some rp =>
      simp only [hr]
      by_cases hne : rp ≠ fp
      · rw [if_pos hne]
        simp only [List.mem_append, List.mem_singleton]
        intro hc
        rcases hc with hc | hc
        · exact h hc
        · exact hne hc.symm
      · rw [if_neg hne]
        exact h

theorem resolveDeps_not_self (fs : FS) (imports : List (List String)) (fp : Path) :
    fp ∉ resolveDeps fs imports fp :=
  resolveDeps_not_self_aux fs fp imports [] (by simp)

theorem lookupA_append_single_isSome {β : Type} (m : List (Path × β)) (k p : Path)
    (v : β) :
    (lookupA (m ++ [(k, v)]) p).isSome = true ↔
      (lookupA m p).isSome = true ∨ p = k := by
  cases hm : lookupA m p with
  | some w =>
    rw [lookupA_append_left [(k, v)] m p w hm]
    simp
  | none =>
    rw [lookupA_append_right _ m p hm]
    by_cases hk : k = p
    · rw [lookupA, if_pos hk]
      simp [hk.symm]
    · rw [lookupA, if_neg hk, lookupA]
      simp only [Option.isSome_none, Bool.false_eq_true, false_or, false_iff]
      exact fun hc => hk hc.symm

theorem stepState_stInv (fs : FS) (fp : Path) (st : MapperState)
    (h : StInv fs st) (hmem : fp ∉ st.processedFiles) :
    StInv fs (stepState fs fp st) := by
  obtain ⟨hE, hK, hL⟩ := h
  refine ⟨?_, ?_, ?_, ?_⟩
  · intro p l hl
    simp only [stepState] at hl
    rcases lookupA_append_single _ _ _ _ _ hl with hold | ⟨hp, hv⟩
    · exact hE p l hold
    · subst hp; exact hv
  · intro p
    simp only [stepState, List.mem_append, List.mem_singleton,
      lookupA_append_single_isSome]
    rw [← hK p]
  · have hnotlog : fp ∉ st.parsedLog := fun hc => hmem (hL.2 fp hc)
    simp only [stepState]
    simp [List.nodup_append, hL.1, hnotlog]
  · intro p hp
    simp only [stepState, List.mem_append, List.mem_singleton] at hp ⊢
    rcases hp with hp | hp
    · exact Or.inl (hL.2 p hp)
    · exact Or.inr hp

theorem mapRecur_stInv (fs : FS) (fuel : Nat) (fp : Path) (st : MapperState)
    (h : StInv fs st) : StInv fs (mapRecur fs fuel fp st) :=
  mapRecur_inv fs (StInv fs) (stepState_stInv fs) fuel fp st h

theorem initState_stInv (fs : FS) : StInv fs initState := by
  refine ⟨?_, ?_, ?_, ?_⟩
  · intro p l hl
    simp [initState, lookupA] at hl
  · intro p
    simp [initState, lookupA]
  · simp [initState]
  · intro p hp
    simp [initState] at hp

theorem mapDependencies_stInv (fs : FS) (startFile : Option Path) :
    StInv fs (mapDependencies fs startFile) := by
  cases startFile with
  | some s => exact mapRecur_stInv fs _ s initState (initState_stInv fs)
  | none =>
    exact foldl_invariant _ (fun st p h => mapRecur_stInv fs _ p st h) _ _
      (initState_stInv fs)

theorem unprocessedCount_le_of_mono (fs : FS) (st st' : MapperState)
    (h : ∀ x, x ∈ st.processedFiles → x ∈ st'.processedFiles) :
    unprocessedCount fs st' ≤ unprocessedCount fs st :=
  filter_length_mono _ _ (fun a ha => by
    simp only [decide_eq_true_eq] at ha ⊢
    exact fun hc => ha (h a hc)) _

theorem unprocessedCount_stepState_lt (fs : FS) (fp : Path) (st : MapperState)
    (hkey : fp ∈ fs.map (·.1)) (hmem : fp ∉ st.processedFiles) :
    unprocessedCount fs (stepState fs fp st) < unprocessedCount fs st := by
  refine filter_length_lt _ _ (fun a ha => ?_) (fs.map (·.1)) fp hkey ?_ ?_
  · simp only [decide_eq_true_eq, stepState, List.mem_append, List.mem_singleton] at ha ⊢
    exact fun hc => ha (Or.inl hc)
  · simpa using hmem
  · simp [stepState]

theorem mapRecur_stable_aux (fs : FS) :
    ∀ k (fuel₁ fuel₂ : Nat) (fp : Path) (st : MapperState),
      unprocessedCount fs st ≤ k → k < fuel₁ → k < fuel₂ →
      mapRecur fs fuel₁ fp st = mapRecur fs fuel₂ fp st := by
  intro k
  induction k using Nat.strong_induction_on with
  | _ k ih =>
    intro fuel₁ fuel₂ fp st hcount h1 h2
    obtain ⟨a, rfl⟩ : ∃ a, fuel₁ = a + 1 := ⟨fuel₁ - 1, by omega⟩
    obtain ⟨b, rfl⟩ : ∃ b, fuel₂ = b + 1 := ⟨fuel₂ - 1, by omega⟩
    by_cases hmem : fp ∈ st.processedFiles
    · rw [mapRecur, if_pos hmem, mapRecur, if_pos hmem]
    · rw [mapRecur, if_neg hmem, mapRecur, if_neg hmem]
      by_cases hkey : fp ∈ fs.map (·.1)
      · have hpos : 0 < unprocessedCount fs st :=
          List.length_pos_of_mem
            (List.mem_filter.mpr ⟨hkey, by simpa using hmem⟩)
        have hstep : unprocessedCount fs (stepState fs fp st) ≤ k - 1 := by
          have := unprocessedCount_stepState_lt fs fp st hkey hmem
          omega
        have hfold : ∀ (deps : List Path) (s : MapperState),
            unprocessedCount fs s ≤ k - 1 →
            deps.foldl (fun s d => mapRecur fs a d s) s =
            deps.foldl (fun s d => mapRecur fs b d s) s := by
          intro deps
          induction deps with
          | nil => intro s _; rfl
          | cons d ds ihd =>
            intro s hs
            rw [List.foldl_cons, List.foldl_cons]
            have heq : mapRecur fs a d s = mapRecur fs b d s :=
              ih (k - 1) (by omega) a b d s hs (by omega) (by omega)
            rw [heq]
            apply ihd
            exact le_trans (unprocessedCount_le_of_mono fs s _ (fun x hx =>
              mapRecur_processed_mono fs x b d s hx)) hs
        exact hfold _ _ hstep
      · have hnone : lookupA fs fp = none := by
          cases hl : lookupA fs fp with
          | none => rfl
          | some f =>
            exact absurd ((lookupA_isSome_iff fs fp).mp (by simp [hl])) hkey
        rw [extractImports_of_missing fs fp hnone]
        rfl

theorem mapRecur_fuel_sufficient (fs : FS) (fuel : Nat) (fp : Path)
    (st : MapperState) (h : fs.length < fuel) :
    mapRecur fs fuel fp st = mapRecur fs (fs.length + 1) fp st := by
  have hc : unprocessedCount fs st ≤ fs.length := by
    have h1 := List.length_filter_le
      (fun p => decide (p ∉ st.processedFiles)) (fs.map (·.1))
    have h2 : (fs.map (·.1)).length = fs.length := List.length_map _ _
    unfold unprocessedCount
    omega
  exact mapRecur_stable_aux fs fs.length fuel (fs.length + 1) fp st hc h (by omega)

theorem foldl_mapRecur_mem (fs : FS) (fuel : Nat) :
    ∀ (l : List Path) (st : MapperState) (g : Path),
      g ∈ l ∨ g ∈ st.processedFiles →
      g ∈ (l.foldl (fun s p => mapRecur fs (fuel + 1) p s) st).processedFiles := by
  intro l
  induction l with
  | nil =>
    intro st g hg
    rcases hg with hg | hg
    · simp at hg
    · simpa using hg
  | cons p l' ihl =>
    intro st g hg
    rw [List.foldl_cons]
    rcases hg with hg | hg
    · rcases List.mem_cons.mp hg with rfl | hg'
      · exact ihl _ g (Or.inr (mapRecur_processes fs fuel g st))
      · exact ihl _ g (Or.inl hg')
    · exact ihl _ g (Or.inr (mapRecur_processed_mono fs g _ p st hg))

theorem mapDependencies_all_processed (fs : FS) (g : Path) (hg : g ∈ pyFiles fs) :
    g ∈ (mapDependencies fs none).processedFiles :=
  foldl_mapRecur_mem fs fs.length (pyFiles fs) initState g (Or.inl hg)

theorem mapDependencies_entry (fs : FS) (startFile : Option Path) (g : Path)
    (hg : g ∈ (mapDependencies fs startFile).processedFiles) :
    lookupA (mapDependencies fs startFile).dependencyMap g =
      some (resolveDeps fs (extractImports fs g) g) := by
  obtain ⟨hE, hK, _⟩ := mapDependencies_stInv fs startFile
  have hs := (hK g).mp hg
  cases hl : lookupA (mapDependencies fs startFile).dependencyMap g with
  | none => rw [hl] at hs; simp at hs
  | some l => exact congrArg some (hE g l hl)

theorem charListLe_total : ∀ a b : List Char,
    charListLe a b = true ∨ charListLe b a = true
  | [], _ => Or.inl rfl
  | _ :: _, [] => Or.inr rfl
  | a :: as, b :: bs => by
    rw [charListLe, charListLe]
    by_cases h1 : a.toNat < b.toNat
    · exact Or.inl (by rw [if_pos h1])
    · by_cases h2 : b.toNat < a.toNat
      · exact Or.inr (by rw [if_pos h2])
      · rw [if_neg h1, if_neg h2, if_neg h2, if_neg h1]
        exact charListLe_total as bs

theorem charListLe_trans : ∀ a b c : List Char,
    charListLe a b = true → charListLe b c = true → charListLe a c = true
  | [], _, _ => fun _ _ => rfl
  | _ :: _, [], _ => fun h _ => by rw [charListLe] at h; exact absurd h (by simp)
  | _ :: _, _ :: _, [] => fun _ h => by rw [charListLe] at h; exact absurd h (by simp)
  | a :: as, b :: bs, c :: cs => fun h1 h2 => by
    rw [charListLe] at h1 h2 ⊢
    by_cases hac : a.toNat < c.toNat
    · rw [if_pos hac]
    · rw [if_neg hac]
      by_cases hab : a.toNat < b.toNat
      · rw [if_pos hab] at h1
        by_cases hbc : b.toNat < c.toNat
        · omega
        · rw [if_neg hbc] at h2
          by_cases hcb : c.toNat < b.toNat
          · rw [if_pos hcb] at h2
            exact absurd h2 (by simp)
          · omega
      · rw [if_neg hab] at h1
        by_cases hba : b.toNat < a.toNat
        · rw [if_pos hba] at h1
          exact absurd h1 (by simp)
        · rw [if_neg hba] at h1
          by_cases hbc : b.toNat < c.toNat
          · omega
          · rw [if_neg hbc] at h2
            by_cases hcb : c.toNat < b.toNat
            · rw [if_pos hcb] at h2
              exact absurd h2 (by simp)
            · rw [if_neg hcb] at h2
              have hca : ¬ c.toNat < a.toNat := by omega
              rw [if_neg hca]
              exact charListLe_trans as bs cs h1 h2

theorem pathLe_total (p q : Path) : pathLe p q = true ∨ pathLe q p = true :=
  charListLe_total (pathChars p) (pathChars q)

theorem pathLe_trans (p q r : Path) :
    pathLe p q = true → pathLe q r = true → pathLe p r = true :=
  charListLe_trans (pathChars p) (pathChars q) (pathChars r)

/-! ### The claims -/

set_option maxRecDepth 1000000

/-- C1, counterexample: the claim fails on the code.  Building `fsUnsorted`
(where `main.py` imports `z` before `a`) and persisting the result as `main`
does leaves the dependency list stored under `main.py` as `[z.py, a.py]`,
which is not lexicographically sorted: `json.dump(..., sort_keys=True)` sorts
only the top-level keys, never the value arrays. -/
theorem C1_value_list_not_sorted :
    lookupA (mainRun fsUnsorted) ["main.py"] = some [["z.py"], ["a.py"]] ∧
    ¬ List.Pairwise (fun p q : Path => pathLe p q = true)
        [["z.py"], ["a.py"]] := by
  constructor
  · decide
  · decide

/-- C1, amended: in the persisted artifact the top-level entries are sorted
lexicographically by file-path key, and the entries are exactly those of the
built map — each dependency list is persisted as stored, in discovery order,
not re-sorted. -/
theorem C1_persisted_keys_sorted (fs : FS) :
    List.Pairwise (fun a b : Path × List Path => pathLe a.1 b.1 = true)
      (mainRun fs) ∧
    (mainRun fs).Perm (mapDependencies fs (some ["main.py"])).dependencyMap := by
  constructor
  · haveI : IsTotal (Path × List Path) (fun a b => pathLe a.1 b.1 = true) :=
      ⟨fun a b => pathLe_total a.1 b.1⟩
    haveI : IsTrans (Path × List Path) (fun a b => pathLe a.1 b.1 = true) :=
      ⟨fun a b c => pathLe_trans a.1 b.1 c.1⟩
    exact List.sorted_insertionSort _ _
  · exact List.perm_insertionSort _ _

/-- C2, counterexample: the claim fails on the code.  In `fsDup`, the file
`a.py` imports module `b` twice (an `import` and a `from ... import`); both
statements resolve to `b.py` and both are stored, so the recorded list for
`a.py` holds a duplicate. -/
theorem C2_duplicates_stored :
    lookupA (mapDependencies fsDup (some ["a.py"])).dependencyMap ["a.py"] =
      some [["b.py"], ["b.py"]] ∧
    ¬ ([["b.py"], ["b.py"]] : List Path).Nodup := by
  constructor
  · decide
  · decide

/-- C2, amended: self-references are indeed excluded — no stored dependency
list ever contains its own key, in either build mode — but duplicates are not
removed: each import resolving to the same target is stored once per
statement. -/
theorem C2_no_self_loops (fs : FS) (startFile : Option Path) (f : Path)
    (l : List Path)
    (h : lookupA (mapDependencies fs startFile).dependencyMap f = some l) :
    f ∉ l := by
  obtain ⟨hE, _, _⟩ := mapDependencies_stInv fs startFile
  rw [hE f l h]
  exact resolveDeps_not_self fs _ f

theorem C2_no_self_loops_witness :
    (["a.py"] : Path) ∉ [(["b.py"] : Path), ["b.py"]] :=
  C2_no_self_loops fsDup (some ["a.py"]) ["a.py"] [["b.py"], ["b.py"]] (by decide)

/-- C3: the code contradicts the claim, and contradicts its own comment
naming candidate 4 a relative-import probe of the parent directory.  In
`fsParent`, the file
`pkg/sub/mod.py` imports `helper`, and the parent-directory candidate
`pkg/helper.py` exists on disk; yet the resolver returns nothing, because its
fourth candidate applies `os.path.dirname` to the importing file only once —
yielding `pkg/sub`, the importing file's own directory, the same path as
candidate 3 — instead of the parent directory `pkg`. -/
theorem C3_parent_probe_missing :
    resolveImportPath fsParent ["helper"] ["pkg", "sub", "mod.py"] = none ∧
    pathExists fsParent
      (dirnameP (dirnameP ["pkg", "sub", "mod.py"]) ++ ["helper.py"]) = true := by
  constructor
  · decide
  · decide

/-- C4, counterexample: the claim fails on the code.  `__init__` stores the
root without any validation, so under an invalid project root (modelled by the
empty filesystem: `os.walk` yields nothing and no existence probe succeeds)
the Builder does not refuse to start: entry-point mode parses the start file
(the extraction log is nonempty) and records an entry for it, and whole-tree
mode silently returns the empty map. -/
theorem C4_invalid_root_not_rejected :
    mapDependencies ([] : FS) (some ["main.py"]) =
      ⟨[(["main.py"], [])], [["main.py"]], [["main.py"]]⟩ ∧
    mapDependencies ([] : FS) none = initState := by
  constructor
  · rfl
  · rfl

/-- C4, amended: no validation of the project root happens anywhere: for an
invalid root the Builder proceeds normally — whole-tree mode produces the
empty map, and entry-point mode attempts to parse the start file and records
exactly one entry for it, with no dependencies. -/
theorem C4_invalid_root_proceeds (start : Path) :
    mapDependencies ([] : FS) (some start) = ⟨[(start, [])], [start], [start]⟩ ∧
    mapDependencies ([] : FS) none = initState := by
  constructor
  · show mapRecur [] 1 start initState = _
    rw [mapRecur, if_neg (by simp [initState])]
    rfl
  · rfl

/-- C5: resolver precedence: whenever the specifier is internal and both the
direct-module candidate and the package-initializer candidate exist on the
filesystem, the resolver returns the direct-module path — candidates are
probed in order and the first existing one wins. -/
theorem C5_direct_module_wins (fs : FS) (importName : List String)
    (currentFile : Path)
    (hint : isExternalModule importName = false)
    (hmod : pathExists fs
      (importName.dropLast ++ [lastSegment importName ++ ".py"]) = true)
    (hpkg : pathExists fs (importName ++ ["__init__.py"]) = true) :
    resolveImportPath fs importName currentFile =
      some (importName.dropLast ++ [lastSegment importName ++ ".py"]) := by
  rw [resolveImportPath, if_neg (by simp [hint])]
  exact List.find?_cons_of_pos _ hmod

theorem C5_witness :
    isExternalModule ["pkg", "mod"] = false ∧
    pathExists fsBoth ["pkg", "mod", "__init__.py"] = true ∧
    resolveImportPath fsBoth ["pkg", "mod"] ["main.py"] = some ["pkg", "mod.py"] :=
  ⟨by decide, by decide,
    C5_direct_module_wins fsBoth ["pkg", "mod"] ["main.py"]
      (by decide) (by decide) (by decide)⟩

/-- C6: the Builder terminates on every finite filesystem — any fuel beyond
the number of files computes the same, already-stable result, so the Python
recursion bottoms out; the Parser runs at most once per file in every run (the
extraction log never repeats); and on the two-file cycle `A.py ↔ B.py` the run
from `A.py` parses each file exactly once and records both edges. -/
theorem C6_cycle_safe_visited_once :
    (∀ (fs : FS) (fuel : Nat) (fp : Path) (st : MapperState), fs.length < fuel →
        mapRecur fs fuel fp st = mapRecur fs (fs.length + 1) fp st) ∧
    (∀ (fs : FS) (startFile : Option Path),
        (mapDependencies fs startFile).parsedLog.Nodup) ∧
    (mapDependencies fsCyc (some ["A.py"])).dependencyMap =
      [(["A.py"], [["B.py"]]), (["B.py"], [["A.py"]])] ∧
    (mapDependencies fsCyc (some ["A.py"])).parsedLog = [["A.py"], ["B.py"]] := by
  refine ⟨mapRecur_fuel_sufficient,
    fun fs s => ((mapDependencies_stInv fs s).2.2).1, ?_, ?_⟩
  · decide
  · decide

theorem C6_witness :
    mapRecur fsCyc 10 ["A.py"] initState =
      mapRecur fsCyc (fsCyc.length + 1) ["A.py"] initState ∧
    (mapDependencies fsCyc (some ["A.py"])).parsedLog.Nodup :=
  ⟨C6_cycle_safe_visited_once.1 fsCyc 10 ["A.py"] initState (by decide),
    C6_cycle_safe_visited_once.2.1 fsCyc (some ["A.py"])⟩

/-- C7: a file whose parse raises yields an empty import list (the exception
is caught inside `extract_imports`), is recorded in the whole-tree build with
an empty dependency list, and every source file under the root is still
processed and recorded — one malformed file never aborts the run. -/
theorem C7_parse_failure_contained (fs : FS) (f : Path) (file : PyFile)
    (hf : lookupA fs f = some file) (hbad : file.stmts = none)
    (hpy : f ∈ pyFiles fs) :
    extractImports fs f = [] ∧
    lookupA (mapDependencies fs none).dependencyMap f = some [] ∧
    ∀ g ∈ pyFiles fs,
      (lookupA (mapDependencies fs none).dependencyMap g).isSome = true := by
  have hext : extractImports fs f = [] := by
    simp only [extractImports, hf, hbad]
  refine ⟨hext, ?_, ?_⟩
  · have hproc := mapDependencies_all_processed fs f hpy
    have hentry := mapDependencies_entry fs none f hproc
    rw [hext] at hentry
    exact hentry
  · intro g hg
    have hproc := mapDependencies_all_processed fs g hg
    rw [mapDependencies_entry fs none g hproc]
    rfl

theorem C7_witness :
    extractImports fsBad ["bad.py"] = [] ∧
    lookupA (mapDependencies fsBad none).dependencyMap ["bad.py"] = some [] :=
  ⟨(C7_parse_failure_contained fsBad ["bad.py"] ⟨"def broken(:", none⟩
      (by decide) rfl (by decide)).1,
    (C7_parse_failure_contained fsBad ["bad.py"] ⟨"def broken(:", none⟩
      (by decide) rfl (by decide)).2.1⟩

/-- C10: a `from . import name` statement carries no module portion and
contributes no specifier, so a file whose parsed body consists solely of such
statements extracts no imports and is recorded with an empty dependency list,
in entry-point mode and (when it is a source file under the root) in
whole-tree mode. -/
theorem C10_relative_imports_invisible (fs : FS) (f : Path) (file : PyFile)
    (stmts : List Stmt) (hf : lookupA fs f = some file)
    (hs : file.stmts = some stmts)
    (hrel : ∀ s ∈ stmts, s = Stmt.fromImp none) :
    stmtImports (Stmt.fromImp none) = [] ∧
    extractImports fs f = [] ∧
    lookupA (mapDependencies fs (some f)).dependencyMap f = some [] ∧
    (f ∈ pyFiles fs →
      lookupA (mapDependencies fs none).dependencyMap f = some []) := by
  have hbody : ∀ (l : List Stmt), (∀ s ∈ l, s = Stmt.fromImp none) →
      ∀ acc, l.foldl (fun acc s => acc ++ stmtImports s) acc = acc := by
    intro l
    induction l with
    | nil => intro _ acc; rfl
    | cons s rest ihs =>
      intro hall acc
      rw [List.foldl_cons, hall s (List.mem_cons_self s rest)]
      rw [show stmtImports (Stmt.fromImp none) = [] from rfl, List.append_nil]
      exact ihs (fun x hx => hall x (List.mem_cons_of_mem s hx)) acc
  have hext : extractImports fs f = [] := by
    simp only [extractImports, hf, hs]
    exact hbody stmts hrel []
  refine ⟨rfl, hext, ?_, ?_⟩
  · have hproc : f ∈ (mapDependencies fs (some f)).processedFiles :=
      mapRecur_processes fs fs.length f initState
    have hentry := mapDependencies_entry fs (some f) f hproc
    rw [hext] at hentry
    exact hentry
  · intro hpy
    have hproc := mapDependencies_all_processed fs f hpy
    have hentry := mapDependencies_entry fs none f hproc
    rw [hext] at hentry
    exact hentry

theorem C10_witness :
    extractImports fsRel ["rel.py"] = [] ∧
    lookupA (mapDependencies fsRel (some ["rel.py"])).dependencyMap ["rel.py"] =
      some [] :=
  ⟨(C10_relative_imports_invisible fsRel ["rel.py"]
      ⟨"", some [.fromImp none, .fromImp none]⟩ [.fromImp none, .fromImp none]
      (by decide) rfl (by decide)).2.1,
    (C10_relative_imports_invisible fsRel ["rel.py"]
      ⟨"", some [.fromImp none, .fromImp none]⟩ [.fromImp none, .fromImp none]
      (by decide) rfl (by decide)).2.2.1⟩

/-! ### Reverse-map lemmas for the unused-files claim -/

theorem lookupA_revEnsure_getD (rm : List (Path × List Path)) (k f : Path) :
    (lookupA (revEnsureKey rm k) f).getD [] = (lookupA rm f).getD [] := by
  rw [revEnsureKey]
  by_cases h : (lookupA rm k).isSome = true
  · rw [if_pos h]
  · rw [if_neg h]
    cases hm : lookupA rm f with
    | some w => rw [lookupA_append_left _ rm f w hm]
    | none =>
      rw [lookupA_append_right _ rm f hm]
      by_cases hk : k = f
      · rw [lookupA, if_pos hk]
        rfl
      · rw [lookupA, if_neg hk, lookupA]

theorem revEnsure_isSome (rm : List (Path × List Path)) (k : Path) :
    (lookupA (revEnsureKey rm k) k).isSome = true := by
  rw [revEnsureKey]
  by_cases h : (lookupA rm k).isSome = true
  · rw [if_pos h]; exact h
  · rw [if_neg h]
    have hn : lookupA rm k = none := by
      cases hm : lookupA rm k with
      | none => rfl
      | some w => rw [hm] at h; simp at h
    rw [lookupA_append_right _ rm k hn, lookupA, if_pos rfl]
    rfl

theorem lookupA_revUpd (dep imp : Path) :
    ∀ (rm : List (Path × List Path)) (f : Path),
      lookupA (rm.map (fun r => if r.1 = dep then (r.1, r.2 ++ [imp]) else r)) f =
        (lookupA rm f).map (fun v => if f = dep then v ++ [imp] else v) := by
  intro rm
  induction rm with
  | nil => intro f; rfl
  | cons r rest ih =>
    obtain ⟨rk, rv⟩ := r
    intro f
    rw [List.map_cons]
    by_cases hr : rk = dep
    · rw [if_pos hr]
      by_cases hf : rk = f
      · rw [lookupA, if_pos hf, lookupA, if_pos hf]
        have hfd : f = dep := by rw [← hf]; exact hr
        simp [hfd]
      · rw [lookupA, if_neg hf, lookupA, if_neg hf]
        exact ih f
    · rw [if_neg hr]
      by_cases hf : rk = f
      · rw [lookupA, if_pos hf, lookupA, if_pos hf]
        have hfd : ¬ f = dep := by rw [← hf]; exact hr
        simp [hfd]
      · rw [lookupA, if_neg hf, lookupA, if_neg hf]
        exact ih f

theorem revAddImporter_mem (imp : Path) (rm : List (Path × List Path))
    (dep q f : Path) :
    q ∈ (lookupA (revAddImporter imp rm dep) f).getD [] ↔
      q ∈ (lookupA rm f).getD [] ∨ (f = dep ∧ q = imp) := by
  rw [revAddImporter, lookupA_revUpd]
  by_cases hfd : f = dep
  · subst hfd
    have hs := revEnsure_isSome rm f
    cases he : lookupA (revEnsureKey rm f) f with
    | none => rw [he] at hs; simp at hs
    | some v =>
      have hv : v = (lookupA rm f).getD [] := by
        have hgd := lookupA_revEnsure_getD rm f f
        rw [he] at hgd
        simpa using hgd
      rw [hv]
      simp [List.mem_append]
  · have hgd := lookupA_revEnsure_getD rm dep f
    cases he : lookupA (revEnsureKey rm dep) f with
    | none =>
      rw [he] at hgd
      simp only [Option.map_none', Option.getD_none]
      rw [← hgd]
      simp [hfd]
    | some v =>
      rw [he] at hgd
      have hv : v = (lookupA rm f).getD [] := by simpa using hgd
      simp only [Option.map_some', Option.getD_some, if_neg hfd]
      rw [hv]
      simp [hfd]

theorem revAdd_fold_mem (imp : Path) :
    ∀ (deps : List Path) (rm : List (Path × List Path)) (q f : Path),
      q ∈ (lookupA (deps.foldl (revAddImporter imp) rm) f).getD [] ↔
        q ∈ (lookupA rm f).getD [] ∨ (q = imp ∧ f ∈ deps) := by
  intro deps
  induction deps with
  | nil => intro rm q f; simp
  | cons d ds ih =>
    intro rm q f
    rw [List.foldl_cons, ih, revAddImporter_mem]
    constructor
    · rintro ((h | ⟨h1, h2⟩) | ⟨h1, h2⟩)
      · exact Or.inl h
      · exact Or.inr ⟨h2, by simp [h1]⟩
      · exact Or.inr ⟨h1, by simp [h2]⟩
    · rintro (h | ⟨h1, h2⟩)
      · exact Or.inl (Or.inl h)
      · rcases List.mem_cons.mp h2 with rfl | hds
        · exact Or.inl (Or.inr ⟨rfl, h1⟩)
        · exact Or.inr ⟨h1, hds⟩

theorem revStep_mem (rm : List (Path × List Path)) (e : Path × List Path)
    (q f : Path) :
    q ∈ (lookupA (revStep rm e) f).getD [] ↔
      q ∈ (lookupA rm f).getD [] ∨ (q = e.1 ∧ f ∈ e.2) := by
  rw [revStep, revAdd_fold_mem, lookupA_revEnsure_getD]

theorem buildReverseMap_fold_mem :
    ∀ (m rm : List (Path × List Path)) (q f : Path),
      q ∈ (lookupA (m.foldl revStep rm) f).getD [] ↔
        q ∈ (lookupA rm f).getD [] ∨ ∃ e ∈ m, e.1 = q ∧ f ∈ e.2 := by
  intro m
  induction m with
  | nil => intro rm q f; simp
  | cons e m' ih =>
    intro rm q f
    rw [List.foldl_cons, ih, revStep_mem]
    constructor
    · rintro ((h | ⟨h1, h2⟩) | ⟨e', he', h1, h2⟩)
      · exact Or.inl h
      · exact Or.inr ⟨e, List.mem_cons_self e m', h1.symm, h2⟩
      · exact Or.inr ⟨e', List.mem_cons_of_mem e he', h1, h2⟩
    · rintro (h | ⟨e', he', h1, h2⟩)
      · exact Or.inl (Or.inl h)
      · rcases List.mem_cons.mp he' with rfl | hm'
        · exact Or.inl (Or.inr ⟨h1.symm, h2⟩)
        · exact Or.inr ⟨e', hm', h1, h2⟩

theorem buildReverseMap_empty_iff (m : List (Path × List Path)) (f : Path) :
    ((lookupA (buildReverseMap m) f).getD []).isEmpty = true ↔
      ∀ e ∈ m, f ∉ e.2 := by
  rw [List.isEmpty_iff, List.eq_nil_iff_forall_not_mem]
  constructor
  · intro h e he hf
    exact h e.1 ((buildReverseMap_fold_mem m [] e.1 f).mpr (Or.inr ⟨e, he, rfl, hf⟩))
  · intro h q hq
    rcases (buildReverseMap_fold_mem m [] q f).mp hq with hnil | ⟨e, he, _, h2⟩
    · simp [lookupA] at hnil
    · exact h e he h2

/-- C9: a Dependency-Map key belongs to the Unused-File Set exactly when no
entry of the map lists it as a dependency (its reverse entry is empty), its
file name is not one of the conventional entry-point names, and its (readable)
text lacks the script-guard tokens; on `{x:[], y:[x]}`, with neither file an
entry point by name or content, exactly `y` is reported and `x` is not. -/
theorem C9_unused_characterization (fs : FS) (m : List (Path × List Path))
    (f : Path) (file : PyFile) (hkey : f ∈ m.map (·.1))
    (hf : lookupA fs f = some file) :
    (f ∈ identifyUnusedFiles fs m ↔
      (∀ e ∈ m, f ∉ e.2) ∧
      memStr entryPointNames (f.getLastD "") = false ∧
      hasMainGuard file.text = false) ∧
    identifyUnusedFiles fsUnused mUnused = [["y.py"]] := by
  refine ⟨?_, by decide⟩
  have hne : ¬ m.isEmpty = true := by
    cases m with
    | nil => simp at hkey
    | cons e m' => simp
  rw [identifyUnusedFiles, if_neg hne, pathSort]
  rw [List.Perm.mem_iff (List.perm_insertionSort _ _)]
  rw [List.mem_filter, List.mem_filter]
  have hpred : unusedPred fs f = true ↔
      (memStr entryPointNames (f.getLastD "") = false ∧
        hasMainGuard file.text = false) := by
    by_cases hm : memStr entryPointNames (f.getLastD "") = true
    · simp [unusedPred, hf, hm]
    · have hm' : memStr entryPointNames (f.getLastD "") = false := by
        simpa using hm
      simp [unusedPred, hf, hm']
  rw [hpred, buildReverseMap_empty_iff]
  constructor
  · rintro ⟨⟨_, hrev⟩, hp⟩
    exact ⟨hrev, hp⟩
  · rintro ⟨hrev, hp⟩
    exact ⟨⟨hkey, hrev⟩, hp⟩

theorem C9_witness :
    (["y.py"] : Path) ∈ identifyUnusedFiles fsUnused mUnused ∧
    identifyUnusedFiles fsUnused mUnused = [["y.py"]] := by
  have h := C9_unused_characterization fsUnused mUnused ["y.py"]
    ⟨"import x", some [.imp [["x"]]]⟩ (by decide) (by decide)
  exact ⟨h.1.mpr ⟨by decide, by decide, by decide⟩, h.2⟩

/-! ### Graph-construction lemmas for the systems claim -/

theorem lookupA_graphEnsure_getD (g : Graph) (k f : Path) :
    (lookupA (graphEnsureKey g k) f).getD [] = (lookupA g f).getD [] :=
  lookupA_revEnsure_getD g k f

theorem graphEnsure_isSome (g : Graph) (k : Path) :
    (lookupA (graphEnsureKey g k) k).isSome = true :=
  revEnsure_isSome g k

theorem adjacent_ensure_iff (g : Graph) (k x y : Path) :
    adjacent (graphEnsureKey g k) x y ↔ adjacent g x y := by
  simp only [adjacent, lookupA_graphEnsure_getD]

theorem lookupA_graphAdd (k v : Path) :
    ∀ (g : Graph) (f : Path),
      lookupA (graphAddNbr g k v) f =
        (lookupA g f).map
          (fun s => if f = k then (if v ∈ s then s else s ++ [v]) else s) := by
  intro g
  induction g with
  | nil => intro f; rfl
  | cons r rest ih =>
    obtain ⟨rk, rv⟩ := r
    intro f
    rw [graphAddNbr, List.map_cons]
    by_cases hr : rk = k
    · rw [if_pos hr]
      by_cases hf : rk = f
      · rw [lookupA, if_pos hf, lookupA, if_pos hf]
        have hfk : f = k := by rw [← hf]; exact hr
        simp [hfk]
      · rw [lookupA, if_neg hf, lookupA, if_neg hf]
        exact ih f
    · rw [if_neg hr]
      by_cases hf : rk = f
      · rw [lookupA, if_pos hf, lookupA, if_pos hf]
        have hfk : ¬ f = k := by rw [← hf]; exact hr
        simp [hfk]
      · rw [lookupA, if_neg hf, lookupA, if_neg hf]
        exact ih f

theorem keys_graphAdd (g : Graph) (k v : Path) :
    (graphAddNbr g k v).map (·.1) = g.map (·.1) := by
  rw [graphAddNbr, List.map_map]
  congr 1
  funext e
  by_cases h : e.1 = k <;> simp [h]

theorem adjacent_key_left {g : Graph} {x y : Path} (h : adjacent g x y) :
    x ∈ g.map (·.1) := by
  rw [adjacent] at h
  cases hl : lookupA g x with
  | none => rw [hl] at h; simp at h
  | some s => exact (lookupA_isSome_iff g x).mp (by rw [hl]; rfl)

theorem mem_keys_ensure (g : Graph) (k x : Path) :
    x ∈ (graphEnsureKey g k).map (·.1) ↔ x ∈ g.map (·.1) ∨ x = k := by
  rw [graphEnsureKey]
  by_cases h : (lookupA g k).isSome = true
  · rw [if_pos h]
    constructor
    · exact Or.inl
    · rintro (hx | rfl)
      · exact hx
      · exact (lookupA_isSome_iff g x).mp h
  · rw [if_neg h]
    rw [List.map_append]
    simp

theorem adjacent_addNbr_iff (g : Graph) (k v x y : Path) :
    adjacent (graphAddNbr g k v) x y ↔
      adjacent g x y ∨ (x = k ∧ y = v ∧ x ∈ g.map (·.1)) := by
  simp only [adjacent]
  rw [lookupA_graphAdd]
  cases hl : lookupA g x with
  | none =>
    simp only [Option.map_none', Option.getD_none]
    constructor
    · intro hy; simp at hy
    · rintro (hy | ⟨_, _, hx⟩)
      · simp at hy
      · have := (lookupA_isSome_iff g x).mpr hx
        rw [hl] at this
        simp at this
  | some s =>
    simp only [Option.map_some', Option.getD_some]
    have hx : x ∈ g.map (·.1) := (lookupA_isSome_iff g x).mp (by rw [hl]; rfl)
    by_cases hk : x = k
    · rw [if_pos hk]
      by_cases hv : v ∈ s
      · rw [if_pos hv]
        constructor
        · exact fun hy => Or.inl hy
        · rintro (hy | ⟨_, rfl, _⟩)
          · exact hy
          · exact hv
      · rw [if_neg hv]
        rw [List.mem_append, List.mem_singleton]
        constructor
        · rintro (hy | rfl)
          · exact Or.inl hy
          · exact Or.inr ⟨hk, rfl, hx⟩
        · rintro (hy | ⟨_, rfl, _⟩)
          · exact Or.inl hy
          · exact Or.inr rfl
    · rw [if_neg hk]
      constructor
      · exact Or.inl
      · rintro (hy | ⟨hxk, _, _⟩)
        · exact hy
        · exact absurd hxk hk

/-- Adjacency after the three-operation update for one dependency edge. -/
theorem adjacent_gtriple_iff (g : Graph) (k dep x y : Path)
    (hk : k ∈ g.map (·.1)) :
    adjacent (graphAddNbr (graphEnsureKey (graphAddNbr g k dep) dep) dep k) x y ↔
      adjacent g x y ∨ (x = k ∧ y = dep) ∨ (x = dep ∧ y = k) := by
  rw [adjacent_addNbr_iff, adjacent_ensure_iff, adjacent_addNbr_iff]
  rw [mem_keys_ensure, keys_graphAdd]
  constructor
  · rintro ((h | ⟨rfl, rfl, _⟩) | ⟨rfl, rfl, _⟩)
    · exact Or.inl h
    · exact Or.inr (Or.inl ⟨rfl, rfl⟩)
    · exact Or.inr (Or.inr ⟨rfl, rfl⟩)
  · rintro (h | ⟨rfl, rfl⟩ | ⟨rfl, rfl⟩)
    · exact Or.inl (Or.inl h)
    · exact Or.inl (Or.inr ⟨rfl, rfl, hk⟩)
    · exact Or.inr ⟨rfl, rfl, Or.inr rfl⟩

theorem mem_keys_gtriple (g : Graph) (k dep x : Path) :
    x ∈ (graphAddNbr (graphEnsureKey (graphAddNbr g k dep) dep) dep k).map (·.1) ↔
      x ∈ g.map (·.1) ∨ x = dep := by
  rw [keys_graphAdd, mem_keys_ensure, keys_graphAdd]

theorem gEdgeStep_inv (k : Path) (g : Graph) (dep : Path)
    (hsym : SymGraph g) (hnk : NbrsAreKeys g) (hk : k ∈ g.map (·.1)) :
    SymGraph (gEdgeStep k g dep) ∧ NbrsAreKeys (gEdgeStep k g dep) ∧
      k ∈ (gEdgeStep k g dep).map (·.1) := by
  refine ⟨?_, ?_, ?_⟩
  · intro x y h
    rw [gEdgeStep, adjacent_gtriple_iff g k dep x y hk] at h
    rw [gEdgeStep, adjacent_gtriple_iff g k dep y x hk]
    rcases h with h | ⟨rfl, rfl⟩ | ⟨rfl, rfl⟩
    · exact Or.inl (hsym x y h)
    · exact Or.inr (Or.inr ⟨rfl, rfl⟩)
    · exact Or.inr (Or.inl ⟨rfl, rfl⟩)
  · intro x y h
    rw [gEdgeStep, adjacent_gtriple_iff g k dep x y hk] at h
    rw [gEdgeStep, mem_keys_gtriple]
    rcases h with h | ⟨rfl, rfl⟩ | ⟨rfl, rfl⟩
    · exact Or.inl (hnk x y h)
    · exact Or.inr rfl
    · exact Or.inl hk
  · rw [gEdgeStep, mem_keys_gtriple]
    exact Or.inl hk

theorem gInner_keys (k : Path) :
    ∀ (deps : List Path) (g : Graph) (x : Path),
      x ∈ (deps.foldl (gEdgeStep k) g).map (·.1) ↔
        x ∈ g.map (·.1) ∨ x ∈ deps := by
  intro deps
  induction deps with
  | nil => intro g x; simp
  | cons d ds ih =>
    intro g x
    rw [List.foldl_cons, ih, gEdgeStep, mem_keys_gtriple]
    rw [List.mem_cons]
    tauto

theorem gInner_inv (k : Path) :
    ∀ (deps : List Path) (g : Graph),
      SymGraph g → NbrsAreKeys g → k ∈ g.map (·.1) →
      SymGraph (deps.foldl (gEdgeStep k) g) ∧
        NbrsAreKeys (deps.foldl (gEdgeStep k) g) := by
  intro deps
  induction deps with
  | nil => intro g hs hn _; exact ⟨hs, hn⟩
  | cons d ds ih =>
    intro g hs hn hk
    rw [List.foldl_cons]
    obtain ⟨hs', hn', hk'⟩ := gEdgeStep_inv k g d hs hn hk
    exact ih _ hs' hn' hk'

theorem gEntryStep_inv (g : Graph) (e : Path × List Path)
    (hsym : SymGraph g) (hnk : NbrsAreKeys g) :
    SymGraph (gEntryStep g e) ∧ NbrsAreKeys (gEntryStep g e) := by
  rw [gEntryStep]
  have hs' : SymGraph (graphEnsureKey g e.1) := by
    intro x y h
    rw [adjacent_ensure_iff] at h ⊢
    exact hsym x y h
  have hn' : NbrsAreKeys (graphEnsureKey g e.1) := by
    intro x y h
    rw [adjacent_ensure_iff] at h
    rw [mem_keys_ensure]
    exact Or.inl (hnk x y h)
  have hk' : e.1 ∈ (graphEnsureKey g e.1).map (·.1) :=
    (mem_keys_ensure g e.1 e.1).mpr (Or.inr rfl)
  exact gInner_inv e.1 e.2 _ hs' hn' hk'

theorem buildGraph_inv (m : List (Path × List Path)) :
    SymGraph (buildGraph m) ∧ NbrsAreKeys (buildGraph m) := by
  rw [buildGraph]
  have hbase : SymGraph ([] : Graph) ∧ NbrsAreKeys ([] : Graph) := by
    constructor <;> intro x y h <;>
      · rw [adjacent] at h
        rw [show lookupA ([] : Graph) x = none from rfl] at h
        simp at h
  exact @foldl_invariant Graph (Path × List Path)
    (fun g => SymGraph g ∧ NbrsAreKeys g) gEntryStep
    (fun g e h => gEntryStep_inv g e h.1 h.2) m [] hbase

theorem mem_keys_gEntryStep (g : Graph) (e : Path × List Path) (x : Path) :
    x ∈ (gEntryStep g e).map (·.1) ↔
      x ∈ g.map (·.1) ∨ x = e.1 ∨ x ∈ e.2 := by
  rw [gEntryStep, gInner_keys, mem_keys_ensure]
  tauto

theorem mem_keys_buildGraph_fold :
    ∀ (m : List (Path × List Path)) (g : Graph) (x : Path),
      x ∈ (m.foldl gEntryStep g).map (·.1) ↔
        x ∈ g.map (·.1) ∨ ∃ e ∈ m, x = e.1 ∨ x ∈ e.2 := by
  intro m
  induction m with
  | nil => intro g x; simp
  | cons e m' ih =>
    intro g x
    rw [List.foldl_cons, ih, mem_keys_gEntryStep]
    constructor
    · rintro ((h | h) | ⟨e', he', h⟩)
      · exact Or.inl h
      · exact Or.inr ⟨e, List.mem_cons_self e m', h⟩
      · exact Or.inr ⟨e', List.mem_cons_of_mem e he', h⟩
    · rintro (h | ⟨e', he', h⟩)
      · exact Or.inl (Or.inl h)
      · rcases List.mem_cons.mp he' with rfl | hm'
        · exact Or.inl (Or.inr h)
        · exact Or.inr ⟨e', hm', h⟩

theorem mem_keys_buildGraph (m : List (Path × List Path)) (x : Path) :
    x ∈ (buildGraph m).map (·.1) ↔ ∃ e ∈ m, x = e.1 ∨ x ∈ e.2 := by
  rw [buildGraph, mem_keys_buildGraph_fold]
  simp

/-! ### Depth-first-search lemmas -/

theorem foldl_invariant_mem {α β : Type} {P : α → Prop} (f : α → β → α) :
    ∀ (l : List β), (∀ a b, b ∈ l → P a → P (f a b)) →
      ∀ (a : α), P a → P (List.foldl f a l) := by
  intro l
  induction l with
  | nil => intro _ a ha; exact ha
  | cons b l' ih =>
    intro h a ha
    rw [List.foldl_cons]
    exact ih (fun a' b' hb' => h a' b' (List.mem_cons_of_mem b hb')) (f a b)
      (h a b (List.mem_cons_self b l') ha)

theorem dfs_visited_mono (g : Graph) :
    ∀ (fuel : Nat) (n : Path) (ds : DfsState) (m : Path),
      m ∈ ds.visited → m ∈ (dfsRecur g fuel n ds).visited := by
  intro fuel
  induction fuel with
  | zero => intro n ds m hm; exact hm
  | succ f ih =>
    intro n ds m hm
    have hstep : dfsRecur g (f + 1) n ds =
        ((lookupA g n).getD []).foldl
          (fun s nbr => if nbr ∈ s.visited then s else dfsRecur g f nbr s)
          ⟨ds.visited ++ [n], ds.component ++ [n]⟩ := rfl
    rw [hstep]
    refine @foldl_invariant DfsState Path (fun s => m ∈ s.visited) _
      (fun s nb hs => ?_) _ _ (by simp [hm])
    by_cases hmem : nb ∈ s.visited
    · rw [if_pos hmem]; exact hs
    · rw [if_neg hmem]; exact ih nb s m hs

theorem unvisitedCount_le_of_subset (g : Graph) (v v' : List Path)
    (h : ∀ x ∈ v, x ∈ v') :
    unvisitedCount g v' ≤ unvisitedCount g v :=
  filter_length_mono _ _ (fun a ha => by
    simp only [decide_eq_true_eq] at ha ⊢
    exact fun hc => ha (h a hc)) _

theorem unvisitedCount_snoc_lt (g : Graph) (v : List Path) (n : Path)
    (hkey : n ∈ g.map (·.1)) (hn : n ∉ v) :
    unvisitedCount g (v ++ [n]) < unvisitedCount g v := by
  refine filter_length_lt _ _ (fun a ha => ?_) (g.map (·.1)) n hkey ?_ ?_
  · simp only [decide_eq_true_eq, List.mem_append, List.mem_singleton] at ha ⊢
    exact fun hc => ha (Or.inl hc)
  · simpa using hn
  · simp

theorem two_le_length_of_two_mem {α : Type} {l : List α} {a b : α}
    (hnd : l.Nodup) (ha : a ∈ l) (hb : b ∈ l) (hne : a ≠ b) :
    2 ≤ l.length := by
  cases l with
  | nil => simp at ha
  | cons x l' =>
    cases l' with
    | nil =>
      rw [List.mem_singleton] at ha hb
      exact absurd (ha.trans hb.symm) hne
    | cons y l'' =>
      simp only [List.length_cons]
      omega

theorem dfs_fold_delta (g : Graph) (f : Nat)
    (ihf : ∀ (n : Path) (ds : DfsState), n ∉ ds.visited →
      ∃ Δ, (dfsRecur g f n ds).visited = ds.visited ++ Δ ∧
        (dfsRecur g f n ds).component = ds.component ++ Δ ∧
        ∀ x ∈ Δ, x ∉ ds.visited) :
    ∀ (nbs : List Path) (ds : DfsState),
      ∃ Δ, (nbs.foldl (fun s nbr => if nbr ∈ s.visited then s
              else dfsRecur g f nbr s) ds).visited = ds.visited ++ Δ ∧
        (nbs.foldl (fun s nbr => if nbr ∈ s.visited then s
              else dfsRecur g f nbr s) ds).component = ds.component ++ Δ ∧
        ∀ x ∈ Δ, x ∉ ds.visited := by
  intro nbs
  induction nbs with
  | nil => intro ds; exact ⟨[], by simp, by simp, by simp⟩
  | cons nb nbs' ih =>
    intro ds
    rw [List.foldl_cons]
    by_cases hmem : nb ∈ ds.visited
    · rw [if_pos hmem]
      exact ih ds
    · rw [if_neg hmem]
      obtain ⟨Δ₁, hv1, hc1, hd1⟩ := ihf nb ds hmem
      obtain ⟨Δ₂, hv2, hc2, hd2⟩ := ih (dfsRecur g f nb ds)
      refine ⟨Δ₁ ++ Δ₂, ?_, ?_, ?_⟩
      · rw [hv2, hv1, List.append_assoc]
      · rw [hc2, hc1, List.append_assoc]
      · intro x hx
        rcases List.mem_append.mp hx with hx | hx
        · exact hd1 x hx
        · intro hv
          exact hd2 x hx (by rw [hv1]; exact List.mem_append.mpr (Or.inl hv))

theorem dfs_delta (g : Graph) :
    ∀ (fuel : Nat) (n : Path) (ds : DfsState), n ∉ ds.visited →
      ∃ Δ, (dfsRecur g fuel n ds).visited = ds.visited ++ Δ ∧
        (dfsRecur g fuel n ds).component = ds.component ++ Δ ∧
        ∀ x ∈ Δ, x ∉ ds.visited := by
  intro fuel
  induction fuel with
  | zero =>
    intro n ds _
    exact ⟨[], by simp [dfsRecur], by simp [dfsRecur], by simp⟩
  | succ f ihf =>
    intro n ds hn
    have hstep : dfsRecur g (f + 1) n ds =
        ((lookupA g n).getD []).foldl
          (fun s nbr => if nbr ∈ s.visited then s else dfsRecur g f nbr s)
          ⟨ds.visited ++ [n], ds.component ++ [n]⟩ := rfl
    rw [hstep]
    obtain ⟨Δ₂, hv2, hc2, hd2⟩ :=
      dfs_fold_delta g f ihf ((lookupA g n).getD [])
        ⟨ds.visited ++ [n], ds.component ++ [n]⟩
    refine ⟨n :: Δ₂, ?_, ?_, ?_⟩
    · rw [hv2]
      show ds.visited ++ [n] ++ Δ₂ = ds.visited ++ (n :: Δ₂)
      rw [List.append_assoc]
      rfl
    · rw [hc2]
      show ds.component ++ [n] ++ Δ₂ = ds.component ++ (n :: Δ₂)
      rw [List.append_assoc]
      rfl
    · intro x hx
      rcases List.mem_cons.mp hx with rfl | hx
      · exact hn
      · intro hv
        have := hd2 x hx
        simp only at this
        exact this (List.mem_append.mpr (Or.inl hv))

theorem dfs_nodup (g : Graph) :
    ∀ (fuel : Nat) (n : Path) (ds : DfsState),
      ds.visited.Nodup → n ∉ ds.visited →
      (dfsRecur g fuel n ds).visited.Nodup := by
  intro fuel
  induction fuel with
  | zero => intro n ds h _; exact h
  | succ f ih =>
    intro n ds h hn
    have hstep : dfsRecur g (f + 1) n ds =
        ((lookupA g n).getD []).foldl
          (fun s nbr => if nbr ∈ s.visited then s else dfsRecur g f nbr s)
          ⟨ds.visited ++ [n], ds.component ++ [n]⟩ := rfl
    rw [hstep]
    refine @foldl_invariant DfsState Path (fun s => s.visited.Nodup) _
      (fun s nb hs => ?_) _ _ ?_
    · by_cases hmem : nb ∈ s.visited
      · rw [if_pos hmem]; exact hs
      · rw [if_neg hmem]; exact ih nb s hs hmem
    · show (ds.visited ++ [n]).Nodup
      rw [List.nodup_append]
      exact ⟨h, List.nodup_singleton n, fun a ha hb => hn ((List.mem_singleton.mp hb) ▸ ha)⟩

theorem dfs_sound (g : Graph) (V₀ : List Path) (n₀ : Path) :
    ∀ (fuel : Nat) (x : Path) (ds : DfsState),
      (∀ m ∈ ds.visited, m ∈ V₀ ∨ reachAvoid g V₀ n₀ m) →
      (∀ m ∈ V₀, m ∈ ds.visited) →
      reachAvoid g V₀ n₀ x →
      (∀ m ∈ (dfsRecur g fuel x ds).visited, m ∈ V₀ ∨ reachAvoid g V₀ n₀ m) ∧
      (∀ m ∈ V₀, m ∈ (dfsRecur g fuel x ds).visited) := by
  intro fuel
  induction fuel with
  | zero => intro x ds h1 h2 _; exact ⟨h1, h2⟩
  | succ f ih =>
    intro x ds h1 h2 hx
    have hstep : dfsRecur g (f + 1) x ds =
        ((lookupA g x).getD []).foldl
          (fun s nbr => if nbr ∈ s.visited then s else dfsRecur g f nbr s)
          ⟨ds.visited ++ [x], ds.component ++ [x]⟩ := rfl
    rw [hstep]
    refine @foldl_invariant_mem DfsState Path
      (fun s => (∀ m ∈ s.visited, m ∈ V₀ ∨ reachAvoid g V₀ n₀ m) ∧
        (∀ m ∈ V₀, m ∈ s.visited)) _ _ (fun s nb hnb hQ => ?_) _ ⟨?_, ?_⟩
    · by_cases hmem : nb ∈ s.visited
      · rw [if_pos hmem]; exact hQ
      · rw [if_neg hmem]
        have hadj : adjacent g x nb := hnb
        have hnbV : nb ∉ V₀ := fun hc => hmem (hQ.2 nb hc)
        exact ih nb s hQ.1 hQ.2 (hx.tail ⟨hadj, hnbV⟩)
    · intro m hm
      rcases List.mem_append.mp hm with hm | hm
      · exact h1 m hm
      · rw [List.mem_singleton] at hm
        subst hm
        exact Or.inr hx
    · intro m hm
      exact List.mem_append.mpr (Or.inl (h2 m hm))

theorem dfs_complete (g : Graph) (hnk : NbrsAreKeys g) :
    ∀ k : Nat, ∀ (fuel : Nat) (n : Path) (ds : DfsState),
      unvisitedCount g ds.visited ≤ k → k < fuel →
      n ∉ ds.visited → n ∈ g.map (·.1) →
      n ∈ (dfsRecur g fuel n ds).visited ∧
      (∀ x ∈ (dfsRecur g fuel n ds).visited, x ∉ ds.visited →
        ∀ y, adjacent g x y → y ∈ (dfsRecur g fuel n ds).visited) := by
  intro k
  induction k using Nat.strong_induction_on with
  | _ k ihk =>
    intro fuel n ds hcount hfuel hn hkey
    obtain ⟨f, rfl⟩ : ∃ f, fuel = f + 1 := ⟨fuel - 1, by omega⟩
    have hpos : 1 ≤ unvisitedCount g ds.visited := by
      have hmem : n ∈ (g.map (·.1)).filter (fun p => decide (p ∉ ds.visited)) :=
        List.mem_filter.mpr ⟨hkey, by simpa using hn⟩
      have := List.length_pos_of_mem hmem
      unfold unvisitedCount
      omega
    have hstep : dfsRecur g (f + 1) n ds =
        ((lookupA g n).getD []).foldl
          (fun s nbr => if nbr ∈ s.visited then s else dfsRecur g f nbr s)
          ⟨ds.visited ++ [n], ds.component ++ [n]⟩ := rfl
    rw [hstep]
    have hfold : ∀ (nbs : List Path), (∀ nb ∈ nbs, adjacent g n nb) →
        ∀ (s : DfsState),
        unvisitedCount g s.visited ≤ k - 1 →
        (∀ m ∈ ds.visited, m ∈ s.visited) → n ∈ s.visited →
        (∀ x ∈ s.visited, x ∉ ds.visited → x ≠ n →
          ∀ y, adjacent g x y → y ∈ s.visited) →
        (∀ m ∈ s.visited,
            m ∈ (nbs.foldl (fun s nbr => if nbr ∈ s.visited then s
              else dfsRecur g f nbr s) s).visited) ∧
        (∀ nb ∈ nbs,
            nb ∈ (nbs.foldl (fun s nbr => if nbr ∈ s.visited then s
              else dfsRecur g f nbr s) s).visited) ∧
        (∀ x ∈ (nbs.foldl (fun s nbr => if nbr ∈ s.visited then s
              else dfsRecur g f nbr s) s).visited, x ∉ ds.visited → x ≠ n →
          ∀ y, adjacent g x y →
            y ∈ (nbs.foldl (fun s nbr => if nbr ∈ s.visited then s
              else dfsRecur g f nbr s) s).visited) := by
      intro nbs
      induction nbs with
      | nil =>
        intro _ s _ _ _ hclosed
        exact ⟨fun m hm => hm, by simp, hclosed⟩
      | cons nb nbs' ihn =>
        intro hadj s hsc hsup hns hclosed
        rw [List.foldl_cons]
        by_cases hm : nb ∈ s.visited
        · rw [if_pos hm]
          obtain ⟨m1, m2, m3⟩ := ihn (fun b hb => hadj b (List.mem_cons_of_mem nb hb))
            s hsc hsup hns hclosed
          refine ⟨m1, ?_, m3⟩
          intro nb' hnb'
          rcases List.mem_cons.mp hnb' with rfl | hb
          · exact m1 nb' hm
          · exact m2 nb' hb
        · rw [if_neg hm]
          have hnbadj : adjacent g n nb := hadj nb (List.mem_cons_self nb nbs')
          have hnbkey : nb ∈ g.map (·.1) := hnk n nb hnbadj
          obtain ⟨ha, hc⟩ := ihk (k - 1) (by omega) f nb s hsc (by omega) hm hnbkey
          have hmono : ∀ m ∈ s.visited, m ∈ (dfsRecur g f nb s).visited :=
            fun m hm' => dfs_visited_mono g f nb s m hm'
          have hsc1 : unvisitedCount g (dfsRecur g f nb s).visited ≤ k - 1 :=
            le_trans (unvisitedCount_le_of_subset g _ _ hmono) hsc
          have hsup1 : ∀ m ∈ ds.visited, m ∈ (dfsRecur g f nb s).visited :=
            fun m hm' => hmono m (hsup m hm')
          have hns1 : n ∈ (dfsRecur g f nb s).visited := hmono n hns
          have hclosed1 : ∀ x ∈ (dfsRecur g f nb s).visited, x ∉ ds.visited →
              x ≠ n → ∀ y, adjacent g x y → y ∈ (dfsRecur g f nb s).visited := by
            intro x hx hxd hxn y hy
            by_cases hxs : x ∈ s.visited
            · exact hmono y (hclosed x hxs hxd hxn y hy)
            · exact hc x hx hxs y hy
          obtain ⟨m1, m2, m3⟩ := ihn (fun b hb => hadj b (List.mem_cons_of_mem nb hb))
            (dfsRecur g f nb s) hsc1 hsup1 hns1 hclosed1
          refine ⟨fun m hm' => m1 m (hmono m hm'), ?_, m3⟩
          intro nb' hnb'
          rcases List.mem_cons.mp hnb' with rfl | hb
          · exact m1 nb' ha
          · exact m2 nb' hb
    have hsub0 : ∀ m ∈ ds.visited, m ∈ ds.visited ++ [n] := fun m hm =>
      List.mem_append.mpr (Or.inl hm)
    have hns0 : n ∈ ds.visited ++ [n] :=
      List.mem_append.mpr (Or.inr (List.mem_singleton_self n))
    have hsc0 : unvisitedCount g (ds.visited ++ [n]) ≤ k - 1 := by
      have := unvisitedCount_snoc_lt g ds.visited n hkey hn
      omega
    have hclosed0 : ∀ x ∈ ds.visited ++ [n], x ∉ ds.visited → x ≠ n →
        ∀ y, adjacent g x y → y ∈ ds.visited ++ [n] := by
      intro x hx hxd hxn
      rcases List.mem_append.mp hx with hx | hx
      · exact absurd hx hxd
      · exact absurd (List.mem_singleton.mp hx) hxn
    obtain ⟨m1, m2, m3⟩ := hfold ((lookupA g n).getD []) (fun nb h => h)
      ⟨ds.visited ++ [n], ds.component ++ [n]⟩ hsc0 hsub0 hns0 hclosed0
    constructor
    · exact m1 n hns0
    · intro x hx hxd y hy
      by_cases hxn : x = n
      · subst hxn
        exact m2 y hy
      · exact m3 x hx hxd hxn y hy

theorem reachAvoid_connected {g : Graph} {v : List Path} {n m : Path}
    (h : reachAvoid g v n m) : connectedG g n m :=
  Relation.ReflTransGen.mono (fun _ _ hxy => hxy.1) h

theorem reachAvoid_not_mem {g : Graph} {v : List Path} {n m : Path}
    (hn : n ∉ v) (h : reachAvoid g v n m) : m ∉ v := by
  induction h with
  | refl => exact hn
  | tail _ h2 _ => exact h2.2

theorem connected_reachAvoid {g : Graph} {v : List Path}
    (hsym : SymGraph g) (hclosed : ClosedUnder g v) {n m : Path}
    (hn : n ∉ v) (h : connectedG g n m) : reachAvoid g v n m := by
  induction h with
  | refl => exact Relation.ReflTransGen.refl
  | @tail b c h1 h2 ih =>
    have hb : b ∉ v := reachAvoid_not_mem hn ih
    have hcv : c ∉ v := fun hcv => hb (hclosed c hcv b (hsym b c h2))
    exact ih.tail ⟨h2, hcv⟩

theorem dfs_char (g : Graph) (hsym : SymGraph g) (hnk : NbrsAreKeys g)
    (v c : List Path) (n : Path) (fuel : Nat)
    (hclosed : ClosedUnder g v) (hn : n ∉ v) (hkey : n ∈ g.map (·.1))
    (hfuel : unvisitedCount g v < fuel) :
    (∀ m, m ∈ (dfsRecur g fuel n ⟨v, c⟩).visited ↔ m ∈ v ∨ connectedG g n m) ∧
    (∀ m, m ∈ (dfsRecur g fuel n ⟨v, c⟩).component ↔ m ∈ c ∨ connectedG g n m) ∧
    ClosedUnder g (dfsRecur g fuel n ⟨v, c⟩).visited := by
  obtain ⟨hmemn, hcl⟩ := dfs_complete g hnk (unvisitedCount g v) fuel n ⟨v, c⟩
    (le_refl _) hfuel hn hkey
  have hsound := dfs_sound g v n fuel n ⟨v, c⟩ (fun m hm => Or.inl hm)
    (fun m hm => hm) Relation.ReflTransGen.refl
  have hvchar : ∀ m, m ∈ (dfsRecur g fuel n ⟨v, c⟩).visited ↔
      m ∈ v ∨ connectedG g n m := by
    intro m
    constructor
    · intro hm
      rcases hsound.1 m hm with h | h
      · exact Or.inl h
      · exact Or.inr (reachAvoid_connected h)
    · intro hm
      rcases hm with hm | hm
      · exact dfs_visited_mono g fuel n ⟨v, c⟩ m hm
      · have hra : reachAvoid g v n m := connected_reachAvoid hsym hclosed hn hm
        clear hm
        induction hra with
        | refl => exact hmemn
        | @tail b c' h1 h2 ih =>
          have hb : b ∉ v := reachAvoid_not_mem hn h1
          exact hcl b ih hb c' h2.1
  obtain ⟨Δ, hvd, hcd, hdd⟩ := dfs_delta g fuel n ⟨v, c⟩ hn
  have hΔ : ∀ m, m ∈ Δ ↔ connectedG g n m := by
    intro m
    constructor
    · intro hΔm
      have hmvis : m ∈ (dfsRecur g fuel n ⟨v, c⟩).visited := by
        rw [hvd]
        exact List.mem_append.mpr (Or.inr hΔm)
      rcases (hvchar m).mp hmvis with h | h
      · exact absurd h (hdd m hΔm)
      · exact h
    · intro hconn
      have hmnv : m ∉ v :=
        reachAvoid_not_mem hn (connected_reachAvoid hsym hclosed hn hconn)
      have hmvis : m ∈ (dfsRecur g fuel n ⟨v, c⟩).visited :=
        (hvchar m).mpr (Or.inr hconn)
      rw [hvd] at hmvis
      rcases List.mem_append.mp hmvis with h | h
      · exact absurd h hmnv
      · exact h
  refine ⟨hvchar, ?_, ?_⟩
  · intro m
    rw [hcd, List.mem_append, hΔ m]
  · intro x hx y hy
    rcases (hvchar x).mp hx with h | h
    · exact (hvchar y).mpr (Or.inl (hclosed x h y hy))
    · exact (hvchar y).mpr (Or.inr (h.tail hy))

theorem dfs_processes (g : Graph) (f : Nat) (n : Path) (ds : DfsState) :
    n ∈ (dfsRecur g (f + 1) n ds).visited := by
  have hstep : dfsRecur g (f + 1) n ds =
      ((lookupA g n).getD []).foldl
        (fun s nbr => if nbr ∈ s.visited then s else dfsRecur g f nbr s)
        ⟨ds.visited ++ [n], ds.component ++ [n]⟩ := rfl
  rw [hstep]
  refine @foldl_invariant DfsState Path (fun s => n ∈ s.visited) _
    (fun s nb hs => ?_) _ _ (by simp)
  by_cases hmem : nb ∈ s.visited
  · rw [if_pos hmem]; exact hs
  · rw [if_neg hmem]; exact dfs_visited_mono g f nb s n hs

theorem systemsStep_visited_mono (g : Graph) (acc : List SystemInfo × List Path)
    (node m : Path) (hm : m ∈ acc.2) : m ∈ (systemsStep g acc node).2 := by
  rw [systemsStep]
  by_cases h : node ∈ acc.2
  · rw [if_pos h]; exact hm
  · rw [if_neg h]
    by_cases h2 : 2 ≤ (dfsRecur g (g.length + 1) node ⟨acc.2, []⟩).component.length
    · rw [if_pos h2]
      exact dfs_visited_mono g _ node ⟨acc.2, []⟩ m hm
    · rw [if_neg h2]
      exact dfs_visited_mono g _ node ⟨acc.2, []⟩ m hm

theorem systemsStep_visits_node (g : Graph) (acc : List SystemInfo × List Path)
    (node : Path) : node ∈ (systemsStep g acc node).2 := by
  rw [systemsStep]
  by_cases h : node ∈ acc.2
  · rw [if_pos h]; exact h
  · rw [if_neg h]
    by_cases h2 : 2 ≤ (dfsRecur g (g.length + 1) node ⟨acc.2, []⟩).component.length
    · rw [if_pos h2]
      exact dfs_processes g g.length node ⟨acc.2, []⟩
    · rw [if_neg h2]
      exact dfs_processes g g.length node ⟨acc.2, []⟩

theorem unvisitedCount_lt_fuel (g : Graph) (v : List Path) :
    unvisitedCount g v < g.length + 1 := by
  have h1 := List.length_filter_le (fun p => decide (p ∉ v)) (g.map (·.1))
  have h2 : (g.map (·.1)).length = g.length := List.length_map _ _
  unfold unvisitedCount
  omega

theorem systemsStep_inv (g : Graph) (hsym : SymGraph g) (hnk : NbrsAreKeys g)
    (acc : List SystemInfo × List Path) (node : Path)
    (hkey : node ∈ g.map (·.1)) (hinv : SysInv g acc) :
    SysInv g (systemsStep g acc node) := by
  obtain ⟨hcl, hnd, hsys, hcomp⟩ := hinv
  rw [systemsStep]
  by_cases h : node ∈ acc.2
  · rw [if_pos h]; exact ⟨hcl, hnd, hsys, hcomp⟩
  · rw [if_neg h]
    obtain ⟨hvchar, hcchar, hclv⟩ := dfs_char g hsym hnk acc.2 [] node
      (g.length + 1) hcl h hkey (unvisitedCount_lt_fuel g acc.2)
    have hnodv : (dfsRecur g (g.length + 1) node ⟨acc.2, []⟩).visited.Nodup :=
      dfs_nodup g _ node ⟨acc.2, []⟩ hnd h
    have hccon : ∀ m, m ∈ (dfsRecur g (g.length + 1) node ⟨acc.2, []⟩).component ↔
        connectedG g node m := by
      intro m
      rw [hcchar m]
      simp
    have hcnodup : (dfsRecur g (g.length + 1) node ⟨acc.2, []⟩).component.Nodup := by
      obtain ⟨Δ, hvd, hcd, hdd⟩ := dfs_delta g (g.length + 1) node ⟨acc.2, []⟩ h
      have hΔnd : Δ.Nodup := by
        have h' := hnodv
        rw [hvd] at h'
        exact (List.nodup_append.mp h').2.1
      rw [hcd]
      simpa using hΔnd
    by_cases h2 : 2 ≤ (dfsRecur g (g.length + 1) node ⟨acc.2, []⟩).component.length
    · rw [if_pos h2]
      refine ⟨hclv, hnodv, ?_, ?_⟩
      · intro s hs
        rcases List.mem_append.mp hs with hs | hs
        · exact hsys s hs
        · rw [List.mem_singleton] at hs
          subst hs
          refine ⟨⟨node, fun y => ?_⟩, ?_, ?_, h2⟩
          · show y ∈ pathSort (dfsRecur g (g.length + 1) node ⟨acc.2, []⟩).component ↔ _
            rw [pathSort, List.Perm.mem_iff (List.perm_insertionSort _ _)]
            exact hccon y
          · show (pathSort (dfsRecur g (g.length + 1) node ⟨acc.2, []⟩).component).Nodup
            rw [pathSort]
            exact (List.Perm.nodup_iff (List.perm_insertionSort _ _)).mpr hcnodup
          · show (dfsRecur g (g.length + 1) node ⟨acc.2, []⟩).component.length =
              (pathSort (dfsRecur g (g.length + 1) node ⟨acc.2, []⟩).component).length
            rw [pathSort]
            exact ((List.perm_insertionSort _ _).length_eq).symm
      · intro x hx hwit
        by_cases hxv : x ∈ acc.2
        · obtain ⟨s, hs, hxs⟩ := hcomp x hxv hwit
          exact ⟨s, List.mem_append.mpr (Or.inl hs), hxs⟩
        · have hconn : connectedG g node x := by
            rcases (hvchar x).mp hx with h' | h'
            · exact absurd h' hxv
            · exact h'
          refine ⟨_, List.mem_append.mpr (Or.inr (List.mem_singleton_self _)), ?_⟩
          show x ∈ pathSort (dfsRecur g (g.length + 1) node ⟨acc.2, []⟩).component
          rw [pathSort, List.Perm.mem_iff (List.perm_insertionSort _ _)]
          exact (hccon x).mpr hconn
    · rw [if_neg h2]
      refine ⟨hclv, hnodv, hsys, ?_⟩
      intro x hx hwit
      by_cases hxv : x ∈ acc.2
      · exact hcomp x hxv hwit
      · exfalso
        have hconn : connectedG g node x := by
          rcases (hvchar x).mp hx with h' | h'
          · exact absurd h' hxv
          · exact h'
        obtain ⟨y, hyx, hyconn⟩ := hwit
        have hyc : connectedG g node y := hconn.trans hyconn
        exact absurd (two_le_length_of_two_mem hcnodup ((hccon x).mpr hconn)
          ((hccon y).mpr hyc) (fun hxy => hyx hxy.symm)) h2

theorem systemsFold_inv (g : Graph) (hsym : SymGraph g) (hnk : NbrsAreKeys g)
    (nodes : List Path) (hmem : ∀ x ∈ nodes, x ∈ g.map (·.1))
    (acc : List SystemInfo × List Path) (hacc : SysInv g acc) :
    SysInv g (nodes.foldl (systemsStep g) acc) :=
  @foldl_invariant_mem (List SystemInfo × List Path) Path (SysInv g)
    (systemsStep g) nodes
    (fun a b hb ha => systemsStep_inv g hsym hnk a b (hmem b hb) ha) acc hacc

theorem systemsFold_all_visited (g : Graph) :
    ∀ (nodes : List Path) (acc : List SystemInfo × List Path) (x : Path),
      x ∈ nodes ∨ x ∈ acc.2 →
      x ∈ (nodes.foldl (systemsStep g) acc).2 := by
  intro nodes
  induction nodes with
  | nil =>
    intro acc x hx
    rcases hx with hx | hx
    · simp at hx
    · exact hx
  | cons nd nodes' ih =>
    intro acc x hx
    rw [List.foldl_cons]
    rcases hx with hx | hx
    · rcases List.mem_cons.mp hx with rfl | hx'
      · exact ih _ x (Or.inr (systemsStep_visits_node g acc x))
      · exact ih _ x (Or.inl hx')
    · exact ih _ x (Or.inr (systemsStep_visited_mono g acc nd x hx))

theorem sysInv_init (g : Graph) : SysInv g ([], []) := by
  refine ⟨?_, ?_, ?_, ?_⟩
  · intro x hx; simp at hx
  · exact List.nodup_nil
  · intro s hs; simp at hs
  · intro x hx; simp at hx

theorem mem_enumFrom_snd {α : Type} :
    ∀ (l : List α) (i : Nat) (e : Nat × α), e ∈ List.enumFrom i l → e.2 ∈ l := by
  intro l
  induction l with
  | nil => intro i e he; simp [List.enumFrom] at he
  | cons x l' ih =>
    intro i e he
    rw [show List.enumFrom i (x :: l') = (i, x) :: List.enumFrom (i + 1) l'
      from rfl] at he
    rcases List.mem_cons.mp he with rfl | he'
    · exact List.mem_cons_self x l'
    · exact List.mem_cons_of_mem x (ih (i + 1) e he')

theorem pairwise_enumFrom {α : Type} {R : α → α → Prop} :
    ∀ (l : List α) (i : Nat), l.Pairwise R →
      (List.enumFrom i l).Pairwise (fun a b => R a.2 b.2) := by
  intro l
  induction l with
  | nil => intro i _; simp [List.enumFrom]
  | cons x l' ih =>
    intro i h
    rw [show List.enumFrom i (x :: l') = (i, x) :: List.enumFrom (i + 1) l'
      from rfl]
    rcases List.pairwise_cons.mp h with ⟨hx, hl⟩
    exact List.pairwise_cons.mpr
      ⟨fun e he => hx e.2 (mem_enumFrom_snd l' (i + 1) e he), ih (i + 1) hl⟩

theorem enumMap_sysIds :
    ∀ (l : List SystemInfo) (i : Nat),
      ((List.enumFrom i l).map
        (fun e => { e.2 with sysId := e.1 + 1 })).map (·.sysId) =
        List.range' (i + 1) l.length := by
  intro l
  induction l with
  | nil => intro i; rfl
  | cons x l' ih =>
    intro i
    rw [show List.enumFrom i (x :: l') = (i, x) :: List.enumFrom (i + 1) l'
      from rfl]
    rw [List.map_cons, List.map_cons, List.length_cons, List.range'_succ]
    rw [ih (i + 1)]

theorem mem_enumMap_of_mem :
    ∀ (l : List SystemInfo) (i : Nat) (s₀ : SystemInfo), s₀ ∈ l →
      ∃ s ∈ (List.enumFrom i l).map (fun e => { e.2 with sysId := e.1 + 1 }),
        s.files = s₀.files ∧ s.fileCount = s₀.fileCount := by
  intro l
  induction l with
  | nil => intro i s₀ h; simp at h
  | cons x l' ih =>
    intro i s₀ h
    rw [show List.enumFrom i (x :: l') = (i, x) :: List.enumFrom (i + 1) l'
      from rfl, List.map_cons]
    rcases List.mem_cons.mp h with rfl | h'
    · exact ⟨{ s₀ with sysId := i + 1 }, List.mem_cons_self _ _, rfl, rfl⟩
    · obtain ⟨s, hs, h1, h2⟩ := ih (i + 1) s₀ h'
      exact ⟨s, List.mem_cons_of_mem _ hs, h1, h2⟩

theorem mem_enumMap_inv :
    ∀ (l : List SystemInfo) (i : Nat) (s : SystemInfo),
      s ∈ (List.enumFrom i l).map (fun e => { e.2 with sysId := e.1 + 1 }) →
      ∃ s₀ ∈ l, s.files = s₀.files ∧ s.fileCount = s₀.fileCount := by
  intro l
  induction l with
  | nil => intro i s h; simp [List.enumFrom] at h
  | cons x l' ih =>
    intro i s h
    rw [show List.enumFrom i (x :: l') = (i, x) :: List.enumFrom (i + 1) l'
      from rfl, List.map_cons] at h
    rcases List.mem_cons.mp h with rfl | h'
    · exact ⟨x, List.mem_cons_self x l', rfl, rfl⟩
    · obtain ⟨s₀, hs₀, h1, h2⟩ := ih (i + 1) s h'
      exact ⟨s₀, List.mem_cons_of_mem x hs₀, h1, h2⟩

theorem sortedSystems_pairwise (m : List (Path × List Path)) :
    (sortedSystems m).Pairwise
      (fun a b : SystemInfo => b.fileCount ≤ a.fileCount) := by
  haveI : IsTotal SystemInfo (fun a b : SystemInfo => b.fileCount ≤ a.fileCount) :=
    ⟨fun a b => Nat.le_total b.fileCount a.fileCount⟩
  haveI : IsTrans SystemInfo (fun a b : SystemInfo => b.fileCount ≤ a.fileCount) :=
    ⟨fun _ _ _ h1 h2 => le_trans h2 h1⟩
  exact List.sorted_insertionSort _ _

theorem sortedSystems_sysP (m : List (Path × List Path)) (s : SystemInfo)
    (hs : s ∈ sortedSystems m) : SysP (buildGraph m) s := by
  rw [sortedSystems, List.Perm.mem_iff (List.perm_insertionSort _ _)] at hs
  obtain ⟨hsym, hnk⟩ := buildGraph_inv m
  have hinv := systemsFold_inv (buildGraph m) hsym hnk
    ((buildGraph m).map (·.1)) (fun x hx => hx) ([], [])
    (sysInv_init (buildGraph m))
  exact hinv.2.2.1 s hs

/-- C8: `identify_systems` reports exactly the size-≥2 connected components of
the undirected closure of the Dependency Map.  Concretely on
`{a:[b], b:[a], c:[d], d:[]}` it yields exactly the two systems `{a,b}` and
`{c,d}`, of size 2, with ids 1 and 2.  In general: every reported system is a
duplicate-free list that is exactly one connected component of the undirected
graph, its count is its true size and is at least 2 (size-1 systems are never
emitted); every file appearing as a key or dependency value whose component is
nontrivial appears in some reported system; systems are sorted by member count
descending; and ids are 1-based ordinals in that order. -/
theorem C8_systems_are_components :
    identifySystems mSys =
      [⟨[["a"], ["b"]], 2, 1⟩, ⟨[["c"], ["d"]], 2, 2⟩] ∧
    (∀ (m : List (Path × List Path)) (s : SystemInfo), s ∈ identifySystems m →
      (2 ≤ s.fileCount ∧ s.fileCount = s.files.length ∧ s.files.Nodup) ∧
      ∃ n, ∀ y, y ∈ s.files ↔ connectedG (buildGraph m) n y) ∧
    (∀ (m : List (Path × List Path)) (x : Path),
      (∃ e ∈ m, x = e.1 ∨ x ∈ e.2) →
      (∃ y, y ≠ x ∧ connectedG (buildGraph m) x y) →
      ∃ s ∈ identifySystems m, x ∈ s.files) ∧
    (∀ m, (identifySystems m).Pairwise
      (fun a b : SystemInfo => b.fileCount ≤ a.fileCount)) ∧
    (∀ m, (identifySystems m).map (·.sysId) =
      List.range' 1 (identifySystems m).length) := by
  refine ⟨by decide, ?_, ?_, ?_, ?_⟩
  · intro m s hs
    rw [identifySystems] at hs
    by_cases hme : m.isEmpty = true
    · rw [if_pos hme] at hs
      simp at hs
    · rw [if_neg hme] at hs
      obtain ⟨s₀, hs₀, hf, hc⟩ := mem_enumMap_inv (sortedSystems m) 0 s hs
      obtain ⟨⟨n, hiff⟩, hnd, hlen, h2⟩ := sortedSystems_sysP m s₀ hs₀
      refine ⟨⟨?_, ?_, ?_⟩, n, fun y => ?_⟩
      · rw [hc]; exact h2
      · rw [hc, hf]; exact hlen
      · rw [hf]; exact hnd
      · rw [hf]; exact hiff y
  · intro m x hxm hwit
    have hme : ¬ m.isEmpty = true := by
      obtain ⟨e, he, _⟩ := hxm
      cases m with
      | nil => simp at he
      | cons a l => simp
    have hxkey : x ∈ (buildGraph m).map (·.1) := (mem_keys_buildGraph m x).mpr hxm
    obtain ⟨hsym, hnk⟩ := buildGraph_inv m
    have hfinal := systemsFold_inv (buildGraph m) hsym hnk
      ((buildGraph m).map (·.1)) (fun z hz => hz) ([], [])
      (sysInv_init (buildGraph m))
    have hxvis : x ∈ (((buildGraph m).map (·.1)).foldl
        (systemsStep (buildGraph m)) ([], [])).2 :=
      systemsFold_all_visited (buildGraph m) _ ([], []) x (Or.inl hxkey)
    obtain ⟨s₀, hs₀, hxs₀⟩ := hfinal.2.2.2 x hxvis hwit
    have hs₀sorted : s₀ ∈ sortedSystems m := by
      rw [sortedSystems, List.Perm.mem_iff (List.perm_insertionSort _ _)]
      exact hs₀
    obtain ⟨s, hs, hf, _⟩ := mem_enumMap_of_mem (sortedSystems m) 0 s₀ hs₀sorted
    refine ⟨s, ?_, by rw [hf]; exact hxs₀⟩
    rw [identifySystems, if_neg hme]
    exact hs
  · intro m
    rw [identifySystems]
    by_cases hme : m.isEmpty = true
    · rw [if_pos hme]
      exact List.Pairwise.nil
    · rw [if_neg hme]
      exact List.pairwise_map.mpr (pairwise_enumFrom (sortedSystems m) 0
        (sortedSystems_pairwise m))
  · intro m
    rw [identifySystems]
    by_cases hme : m.isEmpty = true
    · rw [if_pos hme]
      rfl
    · rw [if_neg hme]
      rw [List.length_map, List.enum_length]
      exact enumMap_sysIds (sortedSystems m) 0

theorem C8_witness :
    (∃ s ∈ identifySystems mSys, (["a"] : Path) ∈ s.files) ∧
    2 ≤ (⟨[["a"], ["b"]], 2, 1⟩ : SystemInfo).fileCount :=
  ⟨C8_systems_are_components.2.2.1 mSys ["a"]
      ⟨(["a"], [["b"]]), by decide, Or.inl rfl⟩
      ⟨["b"], by decide,
        Relation.ReflTransGen.single (by simp only [adjacent]; decide)⟩,
    (C8_systems_are_components.2.1 mSys ⟨[["a"], ["b"]], 2, 1⟩
      (by decide)).1.1⟩

end DepMapper
